import Mathlib

set_option autoImplicit false

/-!
Verification of the lwe::mem::pool slab allocator (src/pool/pool.inl,
src/unnamed/part_000 = pool.hh).

The development has three layers:

* layout arithmetic: the constants computed by the pool constructor
  (pool.inl lines 81-92) and the chunk addresses produced by
  pool::block::initialize (pool.inl lines 34-55);
* a byte-addressed memory model of a single block, used to verify the
  back-reference (chunk header) integrity invariant;
* a state-machine embedding of one pool (blocks keyed by base address,
  each block's intrusive free list abstracted as the list of chunk header
  addresses threaded through it), with construct / destruct / recycle /
  cleanup / release translated statement by statement from pool.inl.

Null pointers are modelled as the address 0.  A dereference of an address
that is not backed by live pool memory is a fault, modelled by operations
returning none.
-/

namespace PoolVerify

/-! ### The aligner collaborator

util::aligner is not part of the pool core (spec section 1 lists it as an
external collaborator); its contract is fixed by spec section 6. -/

/-- Modelled from the spec: util::aligner::boundary, missing from src/;
spec section 6: boundary(n) -> power-of-two >= n (round up to the nearest
power of two).  Starting from 1, the candidate doubles until it reaches n;
n steps of fuel always suffice since 2 ^ n >= n. -/
def boundary (n : Nat) : Nat := boundaryGo n n 1
where
  boundaryGo (n : Nat) : Nat → Nat → Nat
    | 0, acc => acc
    | fuel + 1, acc => if n ≤ acc then acc else boundaryGo n fuel (2 * acc)

/-- Modelled from the spec: util::aligner::adjust, missing from src/;
spec section 6: adjust(value, unit) -> value rounded up to a multiple of
unit. -/
def adjust (v unit : Nat) : Nat := if unit = 0 then v else ((v + unit - 1) / unit) * unit

/-! ### Pool constructor constants (pool.inl lines 81-92) -/

/-- ALIGNMENT = util::aligner::boundary(align) (pool.inl line 82). -/
def ALIGNMENT (align : Nat) : Nat := boundary align

/-- SIZE = util::aligner::adjust(chunk + sizeof(void*), align)
(pool.inl line 83).  The second argument is the raw align parameter, not
the rounded ALIGNMENT. -/
def SIZE (chunk align : Nat) : Nat := adjust (chunk + 8) align

/-- Size in bytes of the block header struct: four pointers
(from, curr, next, prev) on x64 (pool.inl lines 9-18, pool.hh notes
"4 pointer = 32 byte in x64"). -/
def headerBytes : Nat := 32

/-- Address of the chunk header (the pointer-sized back-reference word) of
chunk k of a block at address base, as laid out by pool::block::initialize
(pool.inl lines 39-52): cursor = base + alignment - sizeof(void*), then
advancing by SIZE per chunk. -/
def metaAddr (base alignment size k : Nat) : Nat := base + alignment - 8 + k * size

/-- User-visible address of chunk k: one word past the back-reference
(pool.inl line 144: ret = reinterpret_cast of (uintptr_t*)ptr + 1). -/
def userAddr (base alignment size k : Nat) : Nat := metaAddr base alignment size k + 8

/-- Address compared against curr by the idle test in pool::recycle
(pool.inl line 211): static_cast of (parent + 1), i.e. base +
sizeof(block). -/
def idleTestAddr (base : Nat) : Nat := base + headerBytes

/-! ### State-machine embedding of one pool

A block is identified by its base address.  The intrusive free list wired
through the chunks by block::initialize / get / set is represented as the
list of chunk header addresses it visits: the head is curr, the empty list
is curr == nullptr.  The doubly linked available chain is kept in the
per-block next / prev fields exactly as in the source (0 = nullptr); the
idle deque and the cross-owner queue gc are lists whose front is the pop
end and whose back is the push end.  The model covers a single pool: every
block's from field holds the one pool (written once by block::initialize
and never changed), so pointer comparisons against this are definitionally
true and the from field is not stored. -/

structure Cfg where
  alignment : Nat
  size : Nat
  count : Nat
  deriving DecidableEq

/-- Chunk header addresses of a block at base, in the order in which
block::initialize (pool.inl lines 39-54) threads the free list through
them. -/
def Cfg.metas (c : Cfg) (base : Nat) : List Nat :=
  (List.range c.count).map (fun k => metaAddr base c.alignment c.size k)

structure Block where
  free : List Nat
  next : Nat
  prev : Nat
  deriving DecidableEq

structure State where
  cfg : Cfg
  blocks : List (Nat × Block)
  top : Nat
  idle : List Nat
  gc : List Nat
  deriving DecidableEq

/-- Keys (base addresses) of the association list of live blocks. -/
def keysOf (bl : List (Nat × Block)) : List Nat := bl.map (fun p => p.1)

/-- Dereference a block pointer: look the base address up among the live
blocks. -/
def findBlock : List (Nat × Block) → Nat → Option Block
  | [], _ => none
  | (k, v) :: rest, b => if k = b then some v else findBlock rest b

/-- Write back the header fields of the block at base address b. -/
def setBlock : List (Nat × Block) → Nat → Block → List (Nat × Block)
  | [], _, _ => []
  | (k, v) :: rest, b, nv => if k = b then (k, nv) :: rest else (k, v) :: setBlock rest b nv

/-- all.erase(b) combined with allocator::free(b): the block stops
existing. -/
def removeBlock : List (Nat × Block) → Nat → List (Nat × Block)
  | [], _ => []
  | (k, v) :: rest, b => if k = b then rest else (k, v) :: removeBlock rest b

/-- Concatenation of every live block's free list. -/
def allFree (bl : List (Nat × Block)) : List Nat :=
  bl.foldr (fun p acc => p.2.free ++ acc) []

/-- The read *reinterpret_cast of block** at address a: a chunk header
address yields the base of the block that owns it (block::initialize wrote
the block's address there and nothing overwrites it; this is proved at the
byte level further below), and any other address does not hold a block
pointer, which is a fault (none). -/
def metaOwner (s : State) (a : Nat) : Option Nat :=
  (s.blocks.find? (fun p => (s.cfg.metas p.1).contains a)).map (fun p => p.1)

/-- pool::block::get (pool.inl lines 57-68): pop the head of the free
list; nothing to pop when curr is null. -/
def blockGet (b : Block) : Option Nat × Block :=
  match b.free with
  | [] => (none, b)
  | m :: rest => (some m, { b with free := rest })

/-- pool::block::set (pool.inl lines 70-78): push onto the head of the
free list; no-op when the argument is null. -/
def blockSet (b : Block) (inp : Nat) : Block :=
  if inp = 0 then b else { b with free := inp :: b.free }

/-- pool::setup (pool.inl lines 101-108) together with block::initialize
(lines 34-55).  The raw backend outcome is the parameter alloc (none =
_aligned_malloc returned null).  On success the fresh block's free list
holds every chunk header in layout order, next and prev are null, and the
block is inserted into all; on failure nothing changes and null (0) is
returned. -/
def setup (s : State) (alloc : Option Nat) : Nat × State :=
  match alloc with
  | none => (0, s)
  | some base => (base, { s with blocks := (base, ⟨s.cfg.metas base, 0, 0⟩) :: s.blocks })

/-- Tail of pool::construct from line 129 on, entered with the local ptr
(0 when no chunk was taken from the gc queue): pull a chunk from top,
detach top when it became full, and produce the user pointer one word past
the chunk header.  The model instantiates T with a real object type, so
the placement new at line 146 writes through the result pointer; if ptr
is still null there the write lands at address sizeof(void*), a fault. -/
def constructGo (s : State) (ptr : Nat) : Option (Nat × State) :=
  if ptr = 0 then
    match findBlock s.blocks s.top with
    | none => none
    | some tb =>
      match blockGet tb with
      | (optm, tb') =>
        let s1 : State := { s with blocks := setBlock s.blocks s.top tb' }
        let detached : Option State :=
          if tb'.free = [] then
            if tb'.next ≠ 0 then
              match findBlock s1.blocks tb'.next with
              | none => none
              | some ntb =>
                if ntb.prev = 0 then none
                else
                  match findBlock s1.blocks ntb.prev with
                  | none => none
                  | some pb =>
                    let bl2 := setBlock s1.blocks ntb.prev { pb with next := 0 }
                    match findBlock bl2 tb'.next with
                    | none => none
                    | some ntb2 =>
                      some { s1 with blocks := setBlock bl2 tb'.next { ntb2 with prev := 0 },
                                     top := tb'.next }
            else some { s1 with top := 0 }
          else some s1
        match detached with
        | none => none
        | some s2 =>
          match optm with
          | none => none
          | some m => some (m + 8, s2)
  else some (ptr + 8, s)

/-- pool::construct for a non-pointer object type T (pool.inl lines
110-149).  Returns some (0, s) for the null-returning allocation-failure
path, some (u, s') on success with user pointer u, and none when the code
would fault. -/
def construct (s : State) (alloc : Option Nat) : Option (Nat × State) :=
  if s.top = 0 then
    match s.idle with
    | b :: rest => constructGo { s with top := b, idle := rest } 0
    | [] =>
      match s.gc with
      | g :: grest => constructGo { s with gc := grest } g
      | [] =>
        match setup s alloc with
        | (base, s') =>
          if base = 0 then some (0, s')
          else constructGo { s' with top := base } 0
  else constructGo s 0

/-- pool::recycle (pool.inl lines 194-225), translated statement by
statement: resolve the owning block from the chunk header, splice a full
block back to the head of the available chain, push the chunk with
block::set, and run the idle test curr == (void*)(parent + 1) with its
unlink-and-queue body. -/
def recycle (s : State) (inp : Nat) : Option State := do
  let pb ← metaOwner s inp
  let parent0 ← findBlock s.blocks pb
  let sA ←
    if parent0.free = [] then do
      let sx ←
        if s.top ≠ 0 then do
          let tb ← findBlock s.blocks s.top
          pure { s with blocks := setBlock s.blocks s.top { tb with prev := pb } }
        else pure s
      let p1 ← findBlock sx.blocks pb
      pure { sx with blocks := setBlock sx.blocks pb { p1 with next := sx.top, prev := 0 },
                     top := pb }
    else pure s
  let p2 ← findBlock sA.blocks pb
  let sB : State := { sA with blocks := setBlock sA.blocks pb (blockSet p2 inp) }
  let p3 ← findBlock sB.blocks pb
  if p3.free.head? = some (idleTestAddr pb) then
    if pb = sB.top then pure sB
    else do
      let sC ←
        if p3.next ≠ 0 then do
          let nb ← findBlock sB.blocks p3.next
          let bl2 := setBlock sB.blocks p3.next { nb with prev := p3.prev }
          let p4 ← findBlock bl2 pb
          pure { sB with blocks := setBlock bl2 pb { p4 with next := 0 } }
        else pure sB
      let p5 ← findBlock sC.blocks pb
      let sD ←
        if p5.prev ≠ 0 then do
          let pk ← findBlock sC.blocks p5.prev
          let bl3 := setBlock sC.blocks p5.prev { pk with next := p5.next }
          let p6 ← findBlock bl3 pb
          pure { sC with blocks := setBlock bl3 pb { p6 with prev := 0 } }
        else pure sC
      pure { sD with idle := sD.idle ++ [pb] }
  else pure sB

/-- Drain loop of pool::destruct (pool.inl lines 173-175):
while(gc.try_pop(ptr)) recycle(ptr).  recycle never touches gc, so the
loop walks the queue contents captured at entry. -/
def drainGC : List Nat → State → Option State
  | [], s => some s
  | g :: rest, s => do
    let s' ← recycle s g
    drainGC rest s'

/-- pool::destruct for a non-pointer object type (pool.inl lines 151-176).
Null is a no-op.  Otherwise the chunk header one word below resolves the
owning block and pool; with a single pool the this == self comparison
always takes the recycle branch, after which the pool's own cross-owner
queue is drained via recycle. -/
def destruct (s : State) (u : Nat) : Option State :=
  if u = 0 then some s
  else do
    let _child ← metaOwner s (u - 8)
    let s' ← recycle s (u - 8)
    drainGC s'.gc { s' with gc := [] }

/-- Drain loop of pool::cleanup (pool.inl lines 179-182): every garbage
pointer is pushed onto its owning block's free list via block::set only
(no call to recycle). -/
def cleanupDrain : List Nat → State → Option State
  | [], s => some s
  | g :: rest, s => do
    let pb ← metaOwner s g
    let parent ← findBlock s.blocks pb
    cleanupDrain rest { s with blocks := setBlock s.blocks pb (blockSet parent g) }

/-- Idle-freeing loop of pool::cleanup (pool.inl lines 184-191): pop every
idle entry, erase it from all and free it. -/
def cleanupIdle : List Nat → List (Nat × Block) → List (Nat × Block)
  | [], bl => bl
  | b :: rest, bl =>
      if b = 0 then cleanupIdle rest bl
      else cleanupIdle rest (removeBlock bl b)

/-- pool::cleanup (pool.inl lines 178-192). -/
def cleanup (s : State) : Option State := do
  let s' ← cleanupDrain s.gc { s with gc := [] }
  pure { s' with blocks := cleanupIdle s'.idle s'.blocks, idle := [] }

/-- pool::release for a non-pointer object type (pool.inl lines 227-236).
There is no null test; the word one below in is read as the owning block
pointer (a fault when in does not sit one word past a live chunk header,
including in == null, where the code reads address -8), and then in itself
- not the chunk header address ptr - is pushed onto the owner's
cross-owner queue. -/
def release (s : State) (u : Nat) : Option State := do
  let _pb ← metaOwner s (u - 8)
  pure { s with gc := s.gc ++ [u] }

/-! ### Concrete pool states used by the counterexample and evaluation
theorems.  The configuration has ALIGNMENT 64, SIZE 128 and three chunks
per block; a block at base 1024 then has chunk headers 1080, 1208 and 1336
and user addresses 1088, 1216 and 1344. -/

/-- Example configuration: ALIGNMENT 64, SIZE 128, COUNT 3. -/
def cfgEx : Cfg := ⟨64, 128, 3⟩

/-- Freshly set-up pool: one block at 1024, all three chunks free. -/
def stFresh : State := ⟨cfgEx, [(1024, ⟨[1080, 1208, 1336], 0, 0⟩)], 1024, [], []⟩

/-- Pool whose single block at 1024 is full (curr null) and detached from
the chain, with chunk header 1080 sitting in the cross-owner queue. -/
def stFullGc : State := ⟨cfgEx, [(1024, ⟨[], 0, 0⟩)], 0, [], [1080]⟩

/-- Pool with two blocks chained top = 2048 -> 1024; the non-top block at
1024 has its chunk 1080 in flight and 1208, 1336 free. -/
def stTwoBlocks : State :=
  ⟨cfgEx, [(1024, ⟨[1208, 1336], 0, 2048⟩), (2048, ⟨[2104, 2232, 2360], 1024, 0⟩)],
   2048, [], []⟩

/-- Pool whose single block at 1024 has chunks 1080 and 1208 in flight and
1336 free. -/
def stTwoHeld : State := ⟨cfgEx, [(1024, ⟨[1336], 0, 0⟩)], 1024, [], []⟩

/-- Empty pool: no blocks, no idle entries, empty cross-owner queue. -/
def stEmpty : State := ⟨cfgEx, [], 0, [], []⟩

/-- stFresh after its first chunk (header 1080, user address 1088) was
handed out. -/
def stFresh1 : State := ⟨cfgEx, [(1024, ⟨[1208, 1336], 0, 0⟩)], 1024, [], []⟩

/-- stFresh after its first two chunks were handed out. -/
def stFresh2 : State := ⟨cfgEx, [(1024, ⟨[1336], 0, 0⟩)], 1024, [], []⟩

/-- stTwoBlocks after chunk 1080 is returned: the block at 1024 is fully
idle (all three chunk headers free) yet still linked behind top. -/
def stTwoBlocksIdle : State :=
  ⟨cfgEx, [(1024, ⟨[1080, 1208, 1336], 0, 2048⟩), (2048, ⟨[2104, 2232, 2360], 1024, 0⟩)],
   2048, [], []⟩

/-- stTwoHeld after release(1088) ran: the user address 1088, not the
chunk header 1080, sits in the cross-owner queue. -/
def stTwoHeldG : State := ⟨cfgEx, [(1024, ⟨[1336], 0, 0⟩)], 1024, [], [1088]⟩

/-! ### Association-list and operation lemmas -/

theorem keysOf_setBlock (bl : List (Nat × Block)) (k : Nat) (v : Block) :
    keysOf (setBlock bl k v) = keysOf bl := by
  induction bl with
  | nil => rfl
  | cons hd tl ih =>
    obtain ⟨hk, hv⟩ := hd
    by_cases h : hk = k
    all_goals simp [setBlock, h, keysOf] at ih ⊢
    all_goals exact ih

theorem findBlock_setBlock_self (bl : List (Nat × Block)) (k : Nat) (v b : Block)
    (h : findBlock bl k = some b) : findBlock (setBlock bl k v) k = some v := by
  induction bl with
  | nil => simp [findBlock] at h
  | cons hd tl ih =>
    obtain ⟨hk, hv⟩ := hd
    by_cases he : hk = k
    · simp [setBlock, findBlock, he]
    · simp [setBlock, findBlock, he] at h ⊢
      exact ih h

theorem findBlock_setBlock_ne (bl : List (Nat × Block)) (k k' : Nat) (v : Block)
    (h : k' ≠ k) : findBlock (setBlock bl k v) k' = findBlock bl k' := by
  induction bl with
  | nil => rfl
  | cons hd tl ih =>
    obtain ⟨hk, hv⟩ := hd
    by_cases he : hk = k
    · subst he
      simp [setBlock, findBlock, Ne.symm h]
    · simp [setBlock, findBlock, he]
      by_cases he' : hk = k'
      all_goals simp [he', ih]

theorem find?Key_setBlock (bl : List (Nat × Block)) (k : Nat) (v : Block) (q : Nat → Bool) :
    ((setBlock bl k v).find? (fun p => q p.1)).map (fun p => p.1)
      = (bl.find? (fun p => q p.1)).map (fun p => p.1) := by
  induction bl with
  | nil => rfl
  | cons hd tl ih =>
    obtain ⟨hk, hv⟩ := hd
    by_cases he : hk = k
    · by_cases hq : q hk
      all_goals simp [setBlock, he, List.find?, hq]
      all_goals simp [← he, hq]
    · by_cases hq : q hk
      all_goals simp [setBlock, he, List.find?, hq]
      all_goals exact ih

theorem metaOwner_blocks_setBlock (s : State) (k : Nat) (v : Block) (a : Nat)
    (t2 : Nat) (i2 g2 : List Nat) :
    metaOwner ⟨s.cfg, setBlock s.blocks k v, t2, i2, g2⟩ a = metaOwner s a := by
  show ((setBlock s.blocks k v).find? (fun p => (s.cfg.metas p.1).contains a)).map (fun p => p.1)
      = (s.blocks.find? (fun p => (s.cfg.metas p.1).contains a)).map (fun p => p.1)
  exact find?Key_setBlock s.blocks k v (fun b => (s.cfg.metas b).contains a)

theorem findBlock_some_of_mem_keys (bl : List (Nat × Block)) (b : Nat)
    (h : b ∈ keysOf bl) : ∃ blk, findBlock bl b = some blk := by
  induction bl with
  | nil => simp [keysOf] at h
  | cons hd tl ih =>
    obtain ⟨hk, hv⟩ := hd
    by_cases he : hk = b
    · exact ⟨hv, by simp [findBlock, he]⟩
    · simp [keysOf, he] at h
      rcases h with h | h
      · exact absurd h (fun hh => he hh.symm)
      · obtain ⟨blk, hblk⟩ := ih (by simp [keysOf, h])
        exact ⟨blk, by simp [findBlock, he, hblk]⟩

theorem metaOwner_mem_keys (s : State) (a pb : Nat)
    (h : metaOwner s a = some pb) : pb ∈ keysOf s.blocks := by
  simp only [metaOwner, Option.map_eq_some'] at h
  obtain ⟨p, hp, hk⟩ := h
  have hmem : p ∈ s.blocks := List.mem_of_find?_eq_some hp
  subst hk
  exact List.mem_map_of_mem _ hmem

theorem findBlock_some_of_metaOwner (s : State) (a pb : Nat)
    (h : metaOwner s a = some pb) : ∃ blk, findBlock s.blocks pb = some blk :=
  findBlock_some_of_mem_keys _ _ (metaOwner_mem_keys s a pb h)

/-- Behaviour of the cleanup drain loop on any queue whose entries resolve
to live chunk headers: every entry is pushed onto its owning block's free
list, while top, the idle queue, the block key set and every block's
next and prev links are untouched. -/
theorem cleanupDrain_spec (gcl : List Nat) (s : State)
    (hg : ∀ g ∈ gcl, metaOwner s g ≠ none) :
    ∃ s', cleanupDrain gcl s = some s'
      ∧ s'.cfg = s.cfg ∧ s'.top = s.top ∧ s'.idle = s.idle ∧ s'.gc = s.gc
      ∧ keysOf s'.blocks = keysOf s.blocks
      ∧ ∀ b blk, findBlock s.blocks b = some blk →
          ∃ blk', findBlock s'.blocks b = some blk'
            ∧ blk'.next = blk.next ∧ blk'.prev = blk.prev
            ∧ ∃ pre : List Nat, blk'.free = pre ++ blk.free := by
  induction gcl generalizing s with
  | nil =>
    exact ⟨s, rfl, rfl, rfl, rfl, rfl, rfl,
      fun b blk h => ⟨blk, h, rfl, rfl, [], rfl⟩⟩
  | cons g rest ih =>
    have hgo : metaOwner s g ≠ none := hg g (List.mem_cons_self g rest)
    obtain ⟨pb, hpb⟩ : ∃ pb, metaOwner s g = some pb := by
      cases hmo : metaOwner s g with
      | none => exact absurd hmo hgo
      | some x => exact ⟨x, rfl⟩
    obtain ⟨parent, hparent⟩ := findBlock_some_of_metaOwner s g pb hpb
    set s1 : State := { s with blocks := setBlock s.blocks pb (blockSet parent g) } with hs1
    have hstep : cleanupDrain (g :: rest) s = cleanupDrain rest s1 := by
      simp [cleanupDrain, hpb, hparent, hs1]
    have hmo1 : ∀ g' ∈ rest, metaOwner s1 g' ≠ none := by
      intro g' hg'
      have heq : metaOwner s1 g' = metaOwner s g' :=
        metaOwner_blocks_setBlock s pb (blockSet parent g) g' s.top s.idle s.gc
      rw [heq]
      exact hg g' (List.mem_cons_of_mem _ hg')
    obtain ⟨s', hrun, hcfg, htop, hidle, hgc, hkeys, hfind⟩ := ih s1 hmo1
    refine ⟨s', by rw [hstep]; exact hrun, hcfg, htop, hidle, hgc, ?_, ?_⟩
    · rw [hkeys]
      show keysOf (setBlock s.blocks pb (blockSet parent g)) = keysOf s.blocks
      exact keysOf_setBlock _ _ _
    · intro b blk hb
      by_cases hbe : b = pb
      · subst hbe
        have hpe : parent = blk := by rw [hparent] at hb; exact Option.some.inj hb
        subst hpe
        have h1 : findBlock s1.blocks b = some (blockSet parent g) :=
          findBlock_setBlock_self _ _ _ _ hparent
        obtain ⟨blk', hb', hn, hp, pre, hfr⟩ := hfind b (blockSet parent g) h1
        by_cases hg0 : g = 0
        · exact ⟨blk', hb', by simpa [blockSet, hg0] using hn,
            by simpa [blockSet, hg0] using hp, pre, by simpa [blockSet, hg0] using hfr⟩
        · exact ⟨blk', hb', by simpa [blockSet, hg0] using hn,
            by simpa [blockSet, hg0] using hp, pre ++ [g],
            by simpa [blockSet, hg0] using hfr⟩
      · have h1 : findBlock s1.blocks b = findBlock s.blocks b :=
          findBlock_setBlock_ne _ _ _ _ hbe
        exact hfind b blk (by rw [h1]; exact hb)

/-- construct from a non-null top block with at least two free chunks pops
the free-list head and leaves the chain alone. -/
theorem construct_pop (s : State) (a : Option Nat) (t c c' : Nat) (r : List Nat) (nx pv : Nat)
    (h0 : s.top = t) (ht : t ≠ 0)
    (hf : findBlock s.blocks t = some ⟨c :: c' :: r, nx, pv⟩) :
    construct s a = some (c + 8, { s with blocks := setBlock s.blocks t ⟨c' :: r, nx, pv⟩ }) := by
  rw [construct]
  simp [h0, ht, constructGo, hf, blockGet]

/-- construct from a non-null top block with exactly one free chunk and no
next block pops it, marks the block full and sets top to null. -/
theorem construct_pop_last (s : State) (a : Option Nat) (t c : Nat) (pv : Nat)
    (h0 : s.top = t) (ht : t ≠ 0)
    (hf : findBlock s.blocks t = some ⟨[c], 0, pv⟩) :
    construct s a
      = some (c + 8, { s with blocks := setBlock s.blocks t ⟨[], 0, pv⟩, top := 0 }) := by
  rw [construct]
  simp [h0, ht, constructGo, hf, blockGet]

/-- recycle of a chunk of a block that still has free chunks: the chunk is
pushed onto the free-list head and nothing else changes (the idle branch
requires the new head to equal base + 32). -/
theorem recycle_nonfull (s : State) (m t : Nat) (fr : List Nat) (nx pv : Nat)
    (hm : metaOwner s m = some t)
    (hf : findBlock s.blocks t = some ⟨fr, nx, pv⟩) (hfr : fr ≠ [])
    (hm0 : m ≠ 0) (hni : m ≠ idleTestAddr t) :
    recycle s m = some { s with blocks := setBlock s.blocks t ⟨m :: fr, nx, pv⟩ } := by
  have h2 : findBlock (setBlock s.blocks t (blockSet ⟨fr, nx, pv⟩ m)) t
      = some (blockSet ⟨fr, nx, pv⟩ m) := findBlock_setBlock_self _ _ _ _ hf
  simp [recycle, hm, hf, hfr, blockSet, hm0] at h2 ⊢
  simp [h2, hni]

/-- recycle of a chunk of a full block while top is null: the block is
spliced back as the new top with null links and receives the chunk. -/
theorem recycle_full_no_top (s : State) (m t : Nat) (nx pv : Nat)
    (hm : metaOwner s m = some t)
    (hf : findBlock s.blocks t = some ⟨[], nx, pv⟩)
    (h0 : s.top = 0) (hm0 : m ≠ 0) :
    recycle s m = some { s with blocks := setBlock s.blocks t ⟨[m], 0, 0⟩, top := t } := by
  have h1 : findBlock (setBlock s.blocks t ⟨[], (0:Nat), (0:Nat)⟩) t
      = some ⟨[], 0, 0⟩ := findBlock_setBlock_self _ _ _ _ hf
  have h2 : findBlock (setBlock (setBlock s.blocks t ⟨[], 0, 0⟩) t ⟨[m], 0, 0⟩) t
      = some ⟨[m], 0, 0⟩ := findBlock_setBlock_self _ _ _ _ h1
  have h3 : setBlock (setBlock s.blocks t ⟨[], 0, 0⟩) t ⟨[m], 0, 0⟩
      = setBlock s.blocks t ⟨[m], 0, 0⟩ := by
    clear hf h1 h2
    induction s.blocks with
    | nil => rfl
    | cons hd tl ih =>
      obtain ⟨hk, hv⟩ := hd
      by_cases he : hk = t
      all_goals simp [setBlock, he, ih]
  rw [h3] at h2
  rw [recycle]
  simp [hm, hf, h0, blockSet, hm0, h1, h2, h3]

theorem state_eta_gc (s : State) (h : s.gc = []) : { s with gc := [] } = s := by
  cases s with
  | mk cfg bl t i g => simp_all

/-- destruct of an own in-flight chunk with an empty cross-owner queue is
exactly the recycle call. -/
theorem destruct_own (s s' : State) (m t : Nat)
    (hm : metaOwner s m = some t)
    (hr : recycle s m = some s') (hg' : s'.gc = []) :
    destruct s (m + 8) = some s' := by
  rw [destruct]
  have h8 : m + 8 - 8 = m := by omega
  simp [h8, hm, hr, drainGC, hg', state_eta_gc s' hg']

/-! ### Claim theorems (first batch) -/

/-- Claim C1.  The claim is that pool::release pushes the raw chunk to the
owner's cross-owner queue, after which the owner's next destruct or
cleanup recycles that chunk into its block's free list and construct can
return it again.  The code instead pushes in - the user-visible pointer,
one word past the chunk header - while destruct pushes ptr = in - 8 and
both drain loops reinterpret every queue entry as a chunk header; so after
release(1088) on a block whose chunk headers are 1080, 1208 and 1336 the
queue holds 1088, the address 1088 is not a chunk header of any live
block, and the owner's next destruct faults when its drain loop reads the
word at 1088 as a block pointer. -/
theorem C1_release_pushes_user_pointer :
    release stTwoHeld 1088 = some stTwoHeldG
    ∧ stTwoHeldG.gc = [userAddr 1024 64 128 0]
    ∧ userAddr 1024 64 128 0 ≠ metaAddr 1024 64 128 0
    ∧ metaOwner stTwoHeldG 1088 = none
    ∧ destruct stTwoHeldG 1216 = none := by
  refine ⟨by decide, by decide, by decide, by decide, by decide⟩

/-- Claim C2.  The claim is that a fully returned non-top block is moved
by recycle to the idle queue and freed by the next cleanup.  The idle test
in pool::recycle line 211 compares curr against parent + 1 (base +
sizeof(block) = base + 32), but block::initialize lays chunk headers at
base + ALIGNMENT - 8 + k * SIZE: with the ALIGNMENT 64 / SIZE 128 layout
these are 1080, 1208 and 1336 for the block at 1024, never 1056.  So after
the last in-flight chunk of the non-top block at 1024 is destructed the
block is fully idle yet stays on the available chain, the idle queue stays
empty, and cleanup frees nothing and leaves the block in the all set. -/
theorem C2_idle_reclamation_code_bug :
    destruct stTwoBlocks 1088 = some stTwoBlocksIdle
    ∧ findBlock stTwoBlocksIdle.blocks 1024 = some ⟨cfgEx.metas 1024, 0, 2048⟩
    ∧ stTwoBlocksIdle.top = 2048
    ∧ stTwoBlocksIdle.idle = []
    ∧ cleanup stTwoBlocksIdle = some stTwoBlocksIdle
    ∧ metaAddr 1024 64 128 0 ≠ idleTestAddr 1024
    ∧ metaAddr 1024 64 128 1 ≠ idleTestAddr 1024
    ∧ metaAddr 1024 64 128 2 ≠ idleTestAddr 1024 := by
  refine ⟨by decide, by decide, by decide, by decide, by decide, by decide, by decide, by decide⟩

/-- Claim C3, counterexample.  The claim says cleanup recycles drained
chunks with the same semantics as recycle, in particular splicing a
formerly full block back to the head of the available chain.  On the pool
stFullGc - single full detached block at 1024, its chunk header 1080 in
the cross-owner queue - cleanup leaves top = 0 because its drain loop only
calls block::set, whereas recycle on the same state splices the block and
sets top = 1024. -/
theorem C3_cleanup_no_splice_counterexample :
    cleanup stFullGc = some ⟨cfgEx, [(1024, ⟨[1080], 0, 0⟩)], 0, [], []⟩
    ∧ recycle { stFullGc with gc := [] } 1080
        = some ⟨cfgEx, [(1024, ⟨[1080], 0, 0⟩)], 1024, [], []⟩
    ∧ (0 : Nat) ≠ 1024 := by
  refine ⟨by decide, by decide, by decide⟩

/-- Claim C4.  Null handed to pool::destruct or block::set is a no-op that
leaves the state untouched, as claimed; but pool::release has no null
test: it forms in - sizeof(void*) from in = null and dereferences it, a
fault rather than a no-op. -/
theorem C4_null_safety_code_bug :
    (∀ s : State, destruct s 0 = some s)
    ∧ (∀ b : Block, blockSet b 0 = b)
    ∧ release stTwoHeld 0 = none := by
  refine ⟨fun s => by simp [destruct], fun b => by simp [blockSet], by decide⟩

/-- Claim C5, counterexample.  Allocate A = 1088 then B = 1216 from the
three-chunk block of stFresh, destruct B then A; the claim says the next
construct returns B's former address 1216 first, but block::set pushes to
the head of the free list, so the next construct returns A's former
address 1088. -/
theorem C5_lifo_order_counterexample :
    construct stFresh none = some (1088, stFresh1)
    ∧ construct stFresh1 none = some (1216, stFresh2)
    ∧ destruct stFresh2 1216 = some stFresh1
    ∧ destruct stFresh1 1088 = some stFresh
    ∧ (1088 : Nat) ≠ 1216 := by
  refine ⟨by decide, by decide, by decide, by decide, by decide⟩

/-- Claim C6.  When top is null, the idle queue is empty and the
cross-owner queue pop fails, a null from the raw memory backend makes
construct return null with the pool state exactly as before: setup
inserts nothing on failure, so the failed block never enters all, the
chain or any queue. -/
theorem C6_alloc_failure_no_mutation (s : State)
    (ht : s.top = 0) (hi : s.idle = []) (hg : s.gc = []) :
    construct s none = some (0, s) := by
  simp [construct, ht, hi, hg, setup]

/-- Witness for C6 on the concrete empty pool. -/
theorem C6_alloc_failure_no_mutation_witness :
    construct stEmpty none = some (0, stEmpty) :=
  C6_alloc_failure_no_mutation stEmpty rfl rfl rfl

/-- Claim C9.  The claim is that the block header is padded so that every
chunk's data region satisfies the rounded power-of-two ALIGNMENT and does
not overlap the 32-byte block header.  block::initialize advances the
cursor by only ALIGNMENT bytes from the block base (pool.inl line 41), and
the pool constructor adjusts SIZE to the raw align argument instead of
ALIGNMENT (pool.inl line 83).  Consequently: with align 16 the first
chunk's data region starts 16 bytes into the header it is claimed not to
overlap; and with align 24 (ALIGNMENT 32, SIZE 24) the second chunk's user
address on a 32-byte-aligned block base 1024 is congruent to 24, not 0,
modulo ALIGNMENT. -/
theorem C9_layout_code_bug :
    ALIGNMENT 16 = 16
    ∧ userAddr 1024 (ALIGNMENT 16) (SIZE 96 16) 0 = 1024 + 16
    ∧ 1024 + 16 < 1024 + headerBytes
    ∧ ALIGNMENT 24 = 32
    ∧ SIZE 16 24 = 24
    ∧ 1024 % ALIGNMENT 24 = 0
    ∧ userAddr 1024 (ALIGNMENT 24) (SIZE 16 24) 1 % ALIGNMENT 24 = 24 := by
  refine ⟨by decide, by decide, by decide, by decide, by decide, by decide, by decide⟩

/-- Claim C3, amended: cleanup drains the cross-owner queue completely and
pushes every drained chunk onto its owning block's free list via
block::set only; unlike destruct's drain it never splices a formerly full
block back into the available chain and never moves a block to the idle
queue - top, every block's next and prev links and the set of live blocks
are unchanged by the drain (the idle-freeing loop is quiesced here by an
empty idle queue, as holds whenever the idle test has never fired). -/
theorem C3_cleanup_drains_with_set_only (s : State)
    (hidle : s.idle = []) (hg : ∀ g ∈ s.gc, metaOwner s g ≠ none) :
    ∃ s', cleanup s = some s'
      ∧ s'.top = s.top ∧ s'.gc = [] ∧ s'.idle = []
      ∧ keysOf s'.blocks = keysOf s.blocks
      ∧ ∀ b blk, findBlock s.blocks b = some blk →
          ∃ blk', findBlock s'.blocks b = some blk'
            ∧ blk'.next = blk.next ∧ blk'.prev = blk.prev
            ∧ ∃ pre : List Nat, blk'.free = pre ++ blk.free := by
  have hg0 : ∀ g ∈ s.gc, metaOwner { s with gc := [] } g ≠ none := fun g hgm => hg g hgm
  obtain ⟨s', hrun, hcfg, htop, hidle', hgc, hkeys, hfind⟩ :=
    cleanupDrain_spec s.gc { s with gc := [] } hg0
  have hidle'' : s'.idle = [] := by rw [hidle']; exact hidle
  refine ⟨{ s' with blocks := cleanupIdle s'.idle s'.blocks, idle := [] },
    by simp [cleanup, hrun], htop, hgc, rfl, ?_, ?_⟩
  · simp [hidle'', cleanupIdle, hkeys]
  · intro b blk hb
    obtain ⟨blk', hb', hn, hp, pre, hf⟩ := hfind b blk hb
    exact ⟨blk', by simpa [hidle'', cleanupIdle] using hb', hn, hp, pre, hf⟩

/-- Witness for the amended C3 on the concrete pool stFullGc. -/
theorem C3_cleanup_drains_with_set_only_witness :
    ∃ s', cleanup stFullGc = some s'
      ∧ s'.top = stFullGc.top ∧ s'.gc = [] ∧ s'.idle = []
      ∧ keysOf s'.blocks = keysOf stFullGc.blocks
      ∧ ∀ b blk, findBlock stFullGc.blocks b = some blk →
          ∃ blk', findBlock s'.blocks b = some blk'
            ∧ blk'.next = blk.next ∧ blk'.prev = blk.prev
            ∧ ∃ pre : List Nat, blk'.free = pre ++ blk.free :=
  C3_cleanup_drains_with_set_only stFullGc rfl (by decide)

/-- Claim C5, amended: allocate A then B from a block with at least two
free slots, destruct B then A (same pool, same thread); the next construct
returns A's former address - the last chunk destructed, LIFO - and the one
after that returns B's former address. -/
theorem C5_lifo_reuse (s : State) (t c1 c2 : Nat) (rest : List Nat)
    (h0 : s.top = t) (ht : t ≠ 0)
    (hf : findBlock s.blocks t = some ⟨c1 :: c2 :: rest, 0, 0⟩)
    (hgc : s.gc = [])
    (hm1 : metaOwner s c1 = some t) (hm2 : metaOwner s c2 = some t)
    (hc10 : c1 ≠ 0) (hc20 : c2 ≠ 0)
    (hi1 : c1 ≠ idleTestAddr t) (hi2 : c2 ≠ idleTestAddr t) :
    ∃ s1 s2 s3 s4 s5 s6,
      construct s none = some (c1 + 8, s1)
      ∧ construct s1 none = some (c2 + 8, s2)
      ∧ destruct s2 (c2 + 8) = some s3
      ∧ destruct s3 (c1 + 8) = some s4
      ∧ construct s4 none = some (c1 + 8, s5)
      ∧ construct s5 none = some (c2 + 8, s6) := by
  cases rest with
  | nil =>
    set s1 : State := { s with blocks := setBlock s.blocks t ⟨[c2], 0, 0⟩ } with hs1
    have find1 : findBlock s1.blocks t = some ⟨[c2], 0, 0⟩ :=
      findBlock_setBlock_self _ _ _ _ hf
    have hc1 : construct s none = some (c1 + 8, s1) :=
      construct_pop s none t c1 c2 [] 0 0 h0 ht hf
    set s2 : State := { s1 with blocks := setBlock s1.blocks t ⟨[], 0, 0⟩, top := 0 } with hs2
    have hc2 : construct s1 none = some (c2 + 8, s2) :=
      construct_pop_last s1 none t c2 0 h0 ht find1
    have find2 : findBlock s2.blocks t = some ⟨[], 0, 0⟩ :=
      findBlock_setBlock_self _ _ _ _ find1
    have mo2a : metaOwner s2 c2 = some t := by
      have e1 : metaOwner s2 c2 = metaOwner s1 c2 :=
        metaOwner_blocks_setBlock s1 t ⟨[], 0, 0⟩ c2 0 s1.idle s1.gc
      have e2 : metaOwner s1 c2 = metaOwner s c2 :=
        metaOwner_blocks_setBlock s t ⟨[c2], 0, 0⟩ c2 s.top s.idle s.gc
      rw [e1, e2, hm2]
    set s3 : State := { s2 with blocks := setBlock s2.blocks t ⟨[c2], 0, 0⟩, top := t } with hs3
    have hrec1 : recycle s2 c2 = some s3 :=
      recycle_full_no_top s2 c2 t 0 0 mo2a find2 rfl hc20
    have hd1 : destruct s2 (c2 + 8) = some s3 :=
      destruct_own s2 s3 c2 t mo2a hrec1 hgc
    have find3 : findBlock s3.blocks t = some ⟨[c2], 0, 0⟩ :=
      findBlock_setBlock_self _ _ _ _ find2
    have mo3a : metaOwner s3 c1 = some t := by
      have e1 : metaOwner s3 c1 = metaOwner s2 c1 :=
        metaOwner_blocks_setBlock s2 t ⟨[c2], 0, 0⟩ c1 t s2.idle s2.gc
      have e2 : metaOwner s2 c1 = metaOwner s1 c1 :=
        metaOwner_blocks_setBlock s1 t ⟨[], 0, 0⟩ c1 0 s1.idle s1.gc
      have e3 : metaOwner s1 c1 = metaOwner s c1 :=
        metaOwner_blocks_setBlock s t ⟨[c2], 0, 0⟩ c1 s.top s.idle s.gc
      rw [e1, e2, e3, hm1]
    set s4 : State := { s3 with blocks := setBlock s3.blocks t ⟨[c1, c2], 0, 0⟩ } with hs4
    have hrec2 : recycle s3 c1 = some s4 :=
      recycle_nonfull s3 c1 t [c2] 0 0 mo3a find3 (by simp) hc10 hi1
    have hd2 : destruct s3 (c1 + 8) = some s4 :=
      destruct_own s3 s4 c1 t mo3a hrec2 hgc
    have find4 : findBlock s4.blocks t = some ⟨[c1, c2], 0, 0⟩ :=
      findBlock_setBlock_self _ _ _ _ find3
    set s5 : State := { s4 with blocks := setBlock s4.blocks t ⟨[c2], 0, 0⟩ } with hs5
    have hc3 : construct s4 none = some (c1 + 8, s5) :=
      construct_pop s4 none t c1 c2 [] 0 0 rfl ht find4
    have find5 : findBlock s5.blocks t = some ⟨[c2], 0, 0⟩ :=
      findBlock_setBlock_self _ _ _ _ find4
    have hc4 : construct s5 none
        = some (c2 + 8, { s5 with blocks := setBlock s5.blocks t ⟨[], 0, 0⟩, top := 0 }) :=
      construct_pop_last s5 none t c2 0 rfl ht find5
    exact ⟨s1, s2, s3, s4, s5, _, hc1, hc2, hd1, hd2, hc3, hc4⟩
  | cons c3 r =>
    set s1 : State := { s with blocks := setBlock s.blocks t ⟨c2 :: c3 :: r, 0, 0⟩ } with hs1
    have find1 : findBlock s1.blocks t = some ⟨c2 :: c3 :: r, 0, 0⟩ :=
      findBlock_setBlock_self _ _ _ _ hf
    have hc1 : construct s none = some (c1 + 8, s1) :=
      construct_pop s none t c1 c2 (c3 :: r) 0 0 h0 ht hf
    set s2 : State := { s1 with blocks := setBlock s1.blocks t ⟨c3 :: r, 0, 0⟩ } with hs2
    have hc2 : construct s1 none = some (c2 + 8, s2) :=
      construct_pop s1 none t c2 c3 r 0 0 h0 ht find1
    have find2 : findBlock s2.blocks t = some ⟨c3 :: r, 0, 0⟩ :=
      findBlock_setBlock_self _ _ _ _ find1
    have mo2a : metaOwner s2 c2 = some t := by
      have e1 : metaOwner s2 c2 = metaOwner s1 c2 :=
        metaOwner_blocks_setBlock s1 t ⟨c3 :: r, 0, 0⟩ c2 s1.top s1.idle s1.gc
      have e2 : metaOwner s1 c2 = metaOwner s c2 :=
        metaOwner_blocks_setBlock s t ⟨c2 :: c3 :: r, 0, 0⟩ c2 s.top s.idle s.gc
      rw [e1, e2, hm2]
    set s3 : State := { s2 with blocks := setBlock s2.blocks t ⟨c2 :: c3 :: r, 0, 0⟩ } with hs3
    have hrec1 : recycle s2 c2 = some s3 :=
      recycle_nonfull s2 c2 t (c3 :: r) 0 0 mo2a find2 (by simp) hc20 hi2
    have hd1 : destruct s2 (c2 + 8) = some s3 :=
      destruct_own s2 s3 c2 t mo2a hrec1 hgc
    have find3 : findBlock s3.blocks t = some ⟨c2 :: c3 :: r, 0, 0⟩ :=
      findBlock_setBlock_self _ _ _ _ find2
    have mo3a : metaOwner s3 c1 = some t := by
      have e1 : metaOwner s3 c1 = metaOwner s2 c1 :=
        metaOwner_blocks_setBlock s2 t ⟨c2 :: c3 :: r, 0, 0⟩ c1 s2.top s2.idle s2.gc
      have e2 : metaOwner s2 c1 = metaOwner s1 c1 :=
        metaOwner_blocks_setBlock s1 t ⟨c3 :: r, 0, 0⟩ c1 s1.top s1.idle s1.gc
      have e3 : metaOwner s1 c1 = metaOwner s c1 :=
        metaOwner_blocks_setBlock s t ⟨c2 :: c3 :: r, 0, 0⟩ c1 s.top s.idle s.gc
      rw [e1, e2, e3, hm1]
    set s4 : State := { s3 with blocks := setBlock s3.blocks t ⟨c1 :: c2 :: c3 :: r, 0, 0⟩ } with hs4
    have hrec2 : recycle s3 c1 = some s4 :=
      recycle_nonfull s3 c1 t (c2 :: c3 :: r) 0 0 mo3a find3 (by simp) hc10 hi1
    have hd2 : destruct s3 (c1 + 8) = some s4 :=
      destruct_own s3 s4 c1 t mo3a hrec2 hgc
    have find4 : findBlock s4.blocks t = some ⟨c1 :: c2 :: c3 :: r, 0, 0⟩ :=
      findBlock_setBlock_self _ _ _ _ find3
    set s5 : State := { s4 with blocks := setBlock s4.blocks t ⟨c2 :: c3 :: r, 0, 0⟩ } with hs5
    have hc3 : construct s4 none = some (c1 + 8, s5) :=
      construct_pop s4 none t c1 c2 (c3 :: r) 0 0 h0 ht find4
    have find5 : findBlock s5.blocks t = some ⟨c2 :: c3 :: r, 0, 0⟩ :=
      findBlock_setBlock_self _ _ _ _ find4
    have hc4 : construct s5 none
        = some (c2 + 8, { s5 with blocks := setBlock s5.blocks t ⟨c3 :: r, 0, 0⟩ }) :=
      construct_pop s5 none t c2 c3 r 0 0 h0 ht find5
    exact ⟨s1, s2, s3, s4, s5, _, hc1, hc2, hd1, hd2, hc3, hc4⟩

/-- Witness for the amended C5 on the concrete pool stFresh (chunks 1080
and 1208 play A and B). -/
theorem C5_lifo_reuse_witness :
    ∃ s1 s2 s3 s4 s5 s6,
      construct stFresh none = some (1080 + 8, s1)
      ∧ construct s1 none = some (1208 + 8, s2)
      ∧ destruct s2 (1208 + 8) = some s3
      ∧ destruct s3 (1080 + 8) = some s4
      ∧ construct s4 none = some (1080 + 8, s5)
      ∧ construct s5 none = some (1208 + 8, s6) :=
  C5_lifo_reuse stFresh 1024 1080 1208 [1336] rfl (by decide) (by decide) rfl
    (by decide) (by decide) (by decide) (by decide) (by decide) (by decide)

/-! ### Byte-level model of block memory

Used to verify the back-reference integrity invariant (claim C8): chunk
headers written by block::initialize are never overwritten by the free
list writes of block::set (block::get only reads memory), nor by writes
landing inside the object storage region of any chunk. -/

/-- Byte-addressed memory. -/
def Mem : Type := Nat → Nat

/-- Write the byte f x at every byte address x in the interval
[a, a + len). -/
def writeRange (m : Mem) (a len : Nat) (f : Nat → Nat) : Mem :=
  fun x => if a ≤ x ∧ x < a + len then f x else m x

/-- Byte k of the little-endian encoding of v. -/
def byteOf (v k : Nat) : Nat := v / 256 ^ k % 256

/-- Store the 64-bit little-endian word v at byte address a. -/
def writeWord (m : Mem) (a v : Nat) : Mem :=
  writeRange m a 8 (fun x => byteOf v (x - a))

/-- Read the 64-bit little-endian word at byte address a. -/
def readWord (m : Mem) (a : Nat) : Nat :=
  m a + 256 * (m (a+1) + 256 * (m (a+2) + 256 * (m (a+3) + 256 * (m (a+4) +
    256 * (m (a+5) + 256 * (m (a+6) + 256 * m (a+7)))))))

theorem writeRange_frame (m : Mem) (a len : Nat) (f : Nat → Nat) (c : Nat)
    (h : a + len ≤ c ∨ c + 8 ≤ a) :
    ∀ x, c ≤ x → x < c + 8 → writeRange m a len f x = m x := by
  intro x h1 h2
  unfold writeRange
  rw [if_neg (by omega : ¬(a ≤ x ∧ x < a + len))]

theorem readWord_congr (m1 m2 : Mem) (c : Nat)
    (h : ∀ x, c ≤ x → x < c + 8 → m1 x = m2 x) : readWord m1 c = readWord m2 c := by
  unfold readWord
  rw [h c (by omega) (by omega), h (c+1) (by omega) (by omega),
    h (c+2) (by omega) (by omega), h (c+3) (by omega) (by omega),
    h (c+4) (by omega) (by omega), h (c+5) (by omega) (by omega),
    h (c+6) (by omega) (by omega), h (c+7) (by omega) (by omega)]

theorem readWord_writeWord (m : Mem) (a v : Nat) (hv : v < 2 ^ 64) :
    readWord (writeWord m a v) a = v := by
  unfold readWord writeWord writeRange byteOf
  norm_num
  omega

/-- One iteration of the layout loop of block::initialize (pool.inl lines
46-54): chunk k's header word receives the block address and its next
slot the following chunk header (null for the last chunk). -/
def initChunk (base alignment size count : Nat) (m : Mem) (k : Nat) : Mem :=
  writeWord
    (writeWord m (metaAddr base alignment size k) base)
    (metaAddr base alignment size k + 8)
    (if k + 1 < count then metaAddr base alignment size (k + 1) else 0)

/-- The memory effect of block::initialize (pool.inl lines 34-55). -/
def initializeMem (m : Mem) (base alignment size count : Nat) : Mem :=
  (List.range count).foldl (initChunk base alignment size count) m

theorem writeWord_frame (m : Mem) (a v c : Nat) (h : a + 8 ≤ c ∨ c + 8 ≤ a) :
    readWord (writeWord m a v) c = readWord m c :=
  readWord_congr _ _ _ (writeRange_frame m a 8 _ c h)

/-- After block::initialize every chunk header holds the block's base
address. -/
theorem initializeMem_readWord (base alignment size count i : Nat) (m : Mem)
    (hal : 8 ≤ alignment) (hsz : 16 ≤ size) (hbase : base < 2 ^ 64) (hi : i < count) :
    readWord (initializeMem m base alignment size count) (metaAddr base alignment size i)
      = base := by
  have key : ∀ j, i < j → ∀ m' : Mem,
      readWord ((List.range j).foldl (initChunk base alignment size count) m')
        (metaAddr base alignment size i) = base := by
    intro j
    induction j with
    | zero => omega
    | succ j' ih =>
      intro hij m'
      rw [List.range_succ, List.foldl_append]
      simp only [List.foldl_cons, List.foldl_nil]
      by_cases hcase : i < j'
      · have hstep : readWord
            (initChunk base alignment size count
              ((List.range j').foldl (initChunk base alignment size count) m') j')
            (metaAddr base alignment size i)
            = readWord ((List.range j').foldl (initChunk base alignment size count) m')
                (metaAddr base alignment size i) := by
          unfold initChunk
          rw [writeWord_frame, writeWord_frame]
          · unfold metaAddr
            right
            have h1 : (i + 1) * size = i * size + size := by ring
            have hle : (i + 1) * size ≤ j' * size := Nat.mul_le_mul_right size hcase
            omega
          · unfold metaAddr
            right
            have h1 : (i + 1) * size = i * size + size := by ring
            have hle : (i + 1) * size ≤ j' * size := Nat.mul_le_mul_right size hcase
            omega
        rw [hstep]
        exact ih hcase m'
      · have hij' : i = j' := by omega
        subst hij'
        unfold initChunk
        rw [writeWord_frame]
        · exact readWord_writeWord _ _ _ hbase
        · right
          omega
  exact key count hi m

/-- A write performed on block memory while chunks are in use: block::set
stores the old curr into the next slot of the chunk being freed (pool.inl
line 75), and object construction or user code writes inside some chunk's
object storage region (block::get performs no writes at all). -/
inductive ChunkWrite : Type
  | setw (j : Nat) (v : Nat)
  | userw (a len : Nat) (f : Nat → Nat)

/-- Memory effect of a ChunkWrite. -/
def applyChunkWrite (base alignment size : Nat) (m : Mem) : ChunkWrite → Mem
  | .setw j v => writeWord m (metaAddr base alignment size j + 8) v
  | .userw a len f => writeRange m a len f

/-- Well-formedness of a ChunkWrite: set targets a chunk of the block, and
a user write stays inside the object storage region [header + 8,
header + 8 + objsize) of some chunk. -/
def OkWrite (base alignment size count objsize : Nat) : ChunkWrite → Prop
  | .setw j _ => j < count
  | .userw a len _ => ∃ j, j < count ∧ metaAddr base alignment size j + 8 ≤ a
      ∧ a + len ≤ metaAddr base alignment size j + 8 + objsize

/-- No well-formed chunk write touches the back-reference word of any
chunk of the block. -/
theorem chunkWrite_frame (base alignment size count objsize i : Nat) (m : Mem)
    (w : ChunkWrite)
    (hal : 8 ≤ alignment) (hsz : 16 ≤ size) (hobj : objsize + 8 ≤ size)
    (hi : i < count) (hok : OkWrite base alignment size count objsize w) :
    readWord (applyChunkWrite base alignment size m w) (metaAddr base alignment size i)
      = readWord m (metaAddr base alignment size i) := by
  cases w with
  | setw j v =>
    unfold applyChunkWrite
    rw [writeWord_frame]
    unfold metaAddr
    rcases Nat.lt_trichotomy j i with hj | hj | hj
    · left
      have h1 : (j + 1) * size = j * size + size := by ring
      have hle : (j + 1) * size ≤ i * size := Nat.mul_le_mul_right size hj
      omega
    · subst hj
      right
      omega
    · right
      have h1 : (i + 1) * size = i * size + size := by ring
      have hle : (i + 1) * size ≤ j * size := Nat.mul_le_mul_right size hj
      omega
  | userw a len f =>
    unfold applyChunkWrite
    apply readWord_congr
    apply writeRange_frame
    obtain ⟨j, hjc, hlo, hhi⟩ := hok
    unfold metaAddr at hlo hhi ⊢
    rcases Nat.lt_trichotomy j i with hj | hj | hj
    · left
      have h1 : (j + 1) * size = j * size + size := by ring
      have hle : (j + 1) * size ≤ i * size := Nat.mul_le_mul_right size hj
      omega
    · subst hj
      right
      omega
    · right
      have h1 : (i + 1) * size = i * size + size := by ring
      have hle : (i + 1) * size ≤ j * size := Nat.mul_le_mul_right size hj
      omega

/-- Claim C8.  For a block laid out by block::initialize (alignment at
least a word, chunk stride SIZE at least 16 = header word + next slot, and
object storage of objsize with objsize + 8 <= SIZE as the constructor
guarantees), the pointer-sized back-reference stored at every chunk header
reads back as the owning block's base address after initialization and
after any sequence of block::set next-slot writes and in-bounds object /
user writes; block::get writes nothing.  Resolving chunk to owning block
therefore always identifies the block, and through its from field the
pool, that produced the chunk. -/
theorem C8_back_reference_integrity
    (base alignment size count objsize i : Nat) (m0 : Mem) (ws : List ChunkWrite)
    (hal : 8 ≤ alignment) (hsz : 16 ≤ size) (hobj : objsize + 8 ≤ size)
    (hbase : base < 2 ^ 64) (hi : i < count)
    (hok : ∀ w ∈ ws, OkWrite base alignment size count objsize w) :
    readWord (ws.foldl (applyChunkWrite base alignment size)
        (initializeMem m0 base alignment size count))
      (metaAddr base alignment size i) = base := by
  have step : ∀ (l : List ChunkWrite) (m : Mem),
      (∀ w ∈ l, OkWrite base alignment size count objsize w) →
      readWord m (metaAddr base alignment size i) = base →
      readWord (l.foldl (applyChunkWrite base alignment size) m)
        (metaAddr base alignment size i) = base := by
    intro l
    induction l with
    | nil => intro m _ hm; exact hm
    | cons w rest ih =>
      intro m hws hm
      simp only [List.foldl_cons]
      refine ih _ (fun w' hw' => hws w' (List.mem_cons_of_mem _ hw')) ?_
      rw [chunkWrite_frame base alignment size count objsize i m w hal hsz hobj hi
        (hws w (List.mem_cons_self w rest))]
      exact hm
  exact step ws _ hok
    (initializeMem_readWord base alignment size count i m0 hal hsz hbase hi)

/-- Witness for C8: a two-chunk block at base 1024 (ALIGNMENT 64, SIZE
128, objsize 96); after a block::set write on chunk 1 and a user write
inside chunk 0's object region, the header of chunk 0 still reads 1024. -/
theorem C8_back_reference_integrity_witness :
    readWord
      (([ChunkWrite.setw 1 7, ChunkWrite.userw 1096 4 (fun _ => 5)].foldl
          (applyChunkWrite 1024 64 128)
          (initializeMem (fun _ => 0) 1024 64 128 2)))
      (metaAddr 1024 64 128 0) = 1024 :=
  C8_back_reference_integrity 1024 64 128 2 96 0 (fun _ => 0)
    [ChunkWrite.setw 1 7, ChunkWrite.userw 1096 4 (fun _ => 5)]
    (by decide) (by decide) (by decide) (by decide) (by decide)
    (by
      intro w hw
      simp only [List.mem_cons, List.not_mem_nil, or_false] at hw
      rcases hw with h | h
      · subst h
        exact (by decide : (1 : Nat) < 2)
      · subst h
        exact ⟨0, by decide, by decide, by decide⟩)

end PoolVerify

namespace PoolVerify

theorem findBlock_mem (bl : List (Nat × Block)) (b : Nat) (v : Block)
    (h : findBlock bl b = some v) : (b, v) ∈ bl := by
  induction bl with
  | nil => simp [findBlock] at h
  | cons hd tl ih =>
    obtain ⟨hk, hv⟩ := hd
    by_cases he : hk = b
    · subst he
      simp [findBlock] at h
      simp [h]
    · simp [findBlock, he] at h
      exact List.mem_cons_of_mem _ (ih h)

theorem mem_setBlock (bl : List (Nat × Block)) (k : Nat) (v : Block) :
    ∀ p ∈ setBlock bl k v, p ∈ bl ∨ p = (k, v) := by
  induction bl with
  | nil => simp [setBlock]
  | cons hd tl ih =>
    obtain ⟨hk, hv⟩ := hd
    intro p hp
    by_cases he : hk = k
    · subst he
      simp [setBlock] at hp
      rcases hp with hp | hp
      · right; simp [hp]
      · left; exact List.mem_cons_of_mem _ hp
    · simp [setBlock, he] at hp
      rcases hp with hp | hp
      · left; simp [hp]
      · rcases ih p hp with h | h
        · left; exact List.mem_cons_of_mem _ h
        · right; exact h

theorem setBlock_setBlock (bl : List (Nat × Block)) (k : Nat) (v w : Block) :
    setBlock (setBlock bl k v) k w = setBlock bl k w := by
  induction bl with
  | nil => rfl
  | cons hd tl ih =>
    obtain ⟨hk, hv⟩ := hd
    by_cases he : hk = k
    all_goals simp [setBlock, he, ih]

theorem findBlock_removeBlock_ne (bl : List (Nat × Block)) (k x : Nat)
    (h : x ≠ k) : findBlock (removeBlock bl k) x = findBlock bl x := by
  induction bl with
  | nil => rfl
  | cons hd tl ih =>
    obtain ⟨hk, hv⟩ := hd
    by_cases he : hk = k
    · subst he
      simp [removeBlock, findBlock, Ne.symm h]
    · by_cases he' : hk = x
      all_goals simp [removeBlock, findBlock, he, he', h, ih]

theorem removeBlock_sublist (bl : List (Nat × Block)) (k : Nat) :
    (removeBlock bl k).Sublist bl := by
  induction bl with
  | nil => simp [removeBlock]
  | cons hd tl ih =>
    obtain ⟨hk, hv⟩ := hd
    by_cases he : hk = k
    · simp [removeBlock, he]
    · simp [removeBlock, he]
      exact ih

theorem allFree_sublist (bl bl' : List (Nat × Block)) (h : bl'.Sublist bl) :
    (allFree bl').Sublist (allFree bl) := by
  induction h with
  | slnil => simp [allFree]
  | cons p hsub ih =>
    show (allFree _).Sublist (allFree (_ :: _))
    unfold allFree at ih ⊢
    simp only [List.foldr_cons]
    exact ih.trans (List.sublist_append_right _ _)
  | cons₂ p hsub ih =>
    unfold allFree at ih ⊢
    simp only [List.foldr_cons]
    exact List.Sublist.append (List.Sublist.refl _) ih

theorem mem_allFree (bl : List (Nat × Block)) (x : Nat) :
    x ∈ allFree bl ↔ ∃ p ∈ bl, x ∈ p.2.free := by
  induction bl with
  | nil => simp [allFree]
  | cons hd tl ih =>
    unfold allFree at ih ⊢
    simp only [List.foldr_cons, List.mem_append, ih]
    constructor
    · rintro (h | ⟨p, hp, hx⟩)
      · exact ⟨hd, List.mem_cons_self _ _, h⟩
      · exact ⟨p, List.mem_cons_of_mem _ hp, hx⟩
    · rintro ⟨p, hp, hx⟩
      rcases List.mem_cons.mp hp with h | h
      · subst h; exact Or.inl hx
      · exact Or.inr ⟨p, h, hx⟩

theorem allFree_setBlock_decomp (bl : List (Nat × Block)) (k : Nat) (v old : Block)
    (h : findBlock bl k = some old) :
    ∃ L1 L2, allFree bl = L1 ++ (old.free ++ L2)
      ∧ allFree (setBlock bl k v) = L1 ++ (v.free ++ L2) := by
  induction bl with
  | nil => simp [findBlock] at h
  | cons hd tl ih =>
    obtain ⟨hk, hv⟩ := hd
    by_cases he : hk = k
    · subst he
      simp [findBlock] at h
      subst h
      exact ⟨[], allFree tl, by simp [allFree, setBlock], by simp [allFree, setBlock]⟩
    · simp [findBlock, he] at h
      obtain ⟨L1, L2, h1, h2⟩ := ih h
      have e1 : allFree ((hk, hv) :: tl) = hv.free ++ allFree tl := rfl
      have e2 : allFree (setBlock ((hk, hv) :: tl) k v)
          = hv.free ++ allFree (setBlock tl k v) := by
        simp [setBlock, he, allFree]
      refine ⟨hv.free ++ L1, L2, ?_, ?_⟩
      · rw [e1, h1, List.append_assoc]
      · rw [e2, h2, List.append_assoc]

end PoolVerify

namespace PoolVerify

/-- Forward representation of the available chain: from the expected back
pointer p and head b, the list of block bases visited by next links; each
member exists, has a consistent prev link, a non-empty free list, and the
walk is cycle-free. -/
inductive ChainRep : List (Nat × Block) → Nat → Nat → List Nat → Prop
  | nil (bl : List (Nat × Block)) (p : Nat) : ChainRep bl p 0 []
  | cons (bl : List (Nat × Block)) (p b : Nat) (blk : Block) (l : List Nat)
      (hb : b ≠ 0) (hfind : findBlock bl b = some blk) (hprev : blk.prev = p)
      (hfree : blk.free ≠ []) (htail : ChainRep bl b blk.next l) (hnot : b ∉ l) :
      ChainRep bl p b (b :: l)

theorem chainRep_zero (bl : List (Nat × Block)) (p : Nat) (l : List Nat)
    (h : ChainRep bl p 0 l) : l = [] := by
  cases h with
  | nil => rfl
  | cons p b blk l hb hfind hprev hfree htail hnot => exact absurd rfl hb

theorem chainRep_mem (bl : List (Nat × Block)) (p b : Nat) (l : List Nat)
    (h : ChainRep bl p b l) :
    ∀ x ∈ l, ∃ xb, findBlock bl x = some xb ∧ xb.free ≠ [] := by
  induction h with
  | nil => simp
  | cons p b blk l hb hfind hprev hfree htail hnot ih =>
    intro x hx
    rcases List.mem_cons.mp hx with hx | hx
    · subst hx; exact ⟨blk, hfind, hfree⟩
    · exact ih x hx

theorem chainRep_congr (bl bl' : List (Nat × Block)) (p b : Nat) (l : List Nat)
    (h : ChainRep bl p b l)
    (hagree : ∀ x ∈ l, findBlock bl' x = findBlock bl x) :
    ChainRep bl' p b l := by
  induction h with
  | nil => exact ChainRep.nil _ _
  | cons p b blk l hb hfind hprev hfree htail hnot ih =>
    refine ChainRep.cons _ _ _ blk _ hb ?_ hprev hfree ?_ hnot
    · rw [hagree b (List.mem_cons_self _ _)]; exact hfind
    · exact ih (fun x hx => hagree x (List.mem_cons_of_mem _ hx))

theorem chainRep_setBlock_notmem (bl : List (Nat × Block)) (p b k : Nat) (v : Block)
    (l : List Nat) (h : ChainRep bl p b l) (hk : k ∉ l) :
    ChainRep (setBlock bl k v) p b l :=
  chainRep_congr bl _ p b l h
    (fun x hx => findBlock_setBlock_ne bl k x v (fun he => hk (he ▸ hx)))

theorem chainRep_removeBlock_notmem (bl : List (Nat × Block)) (p b k : Nat)
    (l : List Nat) (h : ChainRep bl p b l) (hk : k ∉ l) :
    ChainRep (removeBlock bl k) p b l :=
  chainRep_congr bl _ p b l h
    (fun x hx => findBlock_removeBlock_ne bl k x (fun he => hk (he ▸ hx)))

theorem chainRep_set_same_links (bl : List (Nat × Block)) (p b : Nat) (l : List Nat)
    (h : ChainRep bl p b l) (x : Nat) (xb : Block) (fr : List Nat)
    (hx : findBlock bl x = some xb) (hfr : fr ≠ []) :
    ChainRep (setBlock bl x ⟨fr, xb.next, xb.prev⟩) p b l := by
  induction h with
  | nil => exact ChainRep.nil _ _
  | cons p b blk l hb hfind hprev hfree htail hnot ih =>
    by_cases he : b = x
    · subst he
      have hxb : xb = blk := by rw [hfind] at hx; exact (Option.some.inj hx).symm
      subst hxb
      refine ChainRep.cons _ _ _ ⟨fr, xb.next, xb.prev⟩ _ hb ?_ hprev hfr ?_ hnot
      · exact findBlock_setBlock_self _ _ _ _ hfind
      · exact ih
    · refine ChainRep.cons _ _ _ blk _ hb ?_ hprev hfree ih hnot
      rw [findBlock_setBlock_ne bl x b _ he]
      exact hfind

end PoolVerify

namespace PoolVerify

/-- Chunks held in some free list, together with the cross-owner queue. -/
def freeOrGc (s : State) : List Nat := allFree s.blocks ++ s.gc

/-- State invariant of a single pool, preserved by construct, destruct,
recycle and cleanup (claim C10).  Alongside the chain representation it
carries the bookkeeping facts that make the operations well defined: block
keys are distinct nonzero addresses with pairwise disjoint chunk-header
ranges, free lists stay inside their block's chunk headers, no chunk is
linked twice (free lists and gc jointly duplicate-free), queued garbage is
owned, idle entries are parked blocks with cleared links that are not on
the chain, and the configuration is one in which no chunk header can
collide with the recycle idle-test address base + sizeof(block) (true in
particular for every ALIGNMENT of at least 64, and for 32, since headers
sit at base + ALIGNMENT - 8 + k * SIZE). -/
structure Inv (s : State) : Prop where
  alignGe : 8 ≤ s.cfg.alignment
  sizeGe : 1 ≤ s.cfg.size
  countGe : 1 ≤ s.cfg.count
  noClash : ∀ k, k < s.cfg.count →
    s.cfg.alignment - 8 + k * s.cfg.size ≠ headerBytes
  keysNodup : (keysOf s.blocks).Nodup
  keysPos : ∀ b ∈ keysOf s.blocks, b ≠ 0
  metasDisj : ∀ a ∈ keysOf s.blocks, ∀ b ∈ keysOf s.blocks, a ≠ b →
    ∀ x ∈ s.cfg.metas a, x ∉ s.cfg.metas b
  freeSub : ∀ p ∈ s.blocks, ∀ x ∈ p.2.free, x ∈ s.cfg.metas p.1
  chunksNodup : (freeOrGc s).Nodup
  gcOwned : ∀ g ∈ s.gc, ∃ b ∈ keysOf s.blocks, g ∈ s.cfg.metas b
  chain : ∃ l, ChainRep s.blocks 0 s.top l ∧ ∀ b ∈ s.idle, b ∉ l
  idleOk : ∀ b ∈ s.idle, ∃ blk, findBlock s.blocks b = some blk
      ∧ blk.free ≠ [] ∧ blk.next = 0 ∧ blk.prev = 0
  idleNodup : s.idle.Nodup

/-- The chunk at header m is in flight: linked in no free list and not in
the cross-owner queue. -/
def InFlight (s : State) (m : Nat) : Prop :=
  m ∉ allFree s.blocks ∧ m ∉ s.gc

/-- Freshness of the raw backend's block allocation: a nonzero address not
yet owned, whose chunk-header range is disjoint from every live block's. -/
def AllocFresh (s : State) (alloc : Option Nat) : Prop :=
  ∀ b, alloc = some b → b ≠ 0 ∧ b ∉ keysOf s.blocks ∧
    ∀ a ∈ keysOf s.blocks, ∀ x ∈ s.cfg.metas b, x ∉ s.cfg.metas a

theorem metas_pos (cfg : Cfg) (b : Nat) (hb : b ≠ 0) (hal : 8 ≤ cfg.alignment) :
    ∀ x ∈ cfg.metas b, x ≠ 0 := by
  intro x hx
  simp only [Cfg.metas, List.mem_map, List.mem_range] at hx
  obtain ⟨k, hk, he⟩ := hx
  subst he
  unfold metaAddr
  omega

theorem metas_nodup (cfg : Cfg) (b : Nat) (hsz : 1 ≤ cfg.size) :
    (cfg.metas b).Nodup := by
  unfold Cfg.metas
  refine List.Nodup.map ?_ (List.nodup_range _)
  intro x y hxy
  have h2 : metaAddr b cfg.alignment cfg.size x = metaAddr b cfg.alignment cfg.size y := hxy
  unfold metaAddr at h2
  have hx : x * cfg.size = y * cfg.size := by omega
  exact Nat.eq_of_mul_eq_mul_right (by omega) hx

theorem metas_ne_idleTest (cfg : Cfg) (b : Nat)
    (hal : 8 ≤ cfg.alignment)
    (hcl : ∀ k, k < cfg.count → cfg.alignment - 8 + k * cfg.size ≠ headerBytes) :
    ∀ x ∈ cfg.metas b, x ≠ idleTestAddr b := by
  intro x hx
  simp only [Cfg.metas, List.mem_map, List.mem_range] at hx
  obtain ⟨k, hk, he⟩ := hx
  subst he
  unfold metaAddr idleTestAddr
  have := hcl k hk
  omega

theorem metaOwner_spec (s : State) (a pb : Nat) (h : metaOwner s a = some pb) :
    pb ∈ keysOf s.blocks ∧ a ∈ s.cfg.metas pb := by
  simp only [metaOwner, Option.map_eq_some'] at h
  obtain ⟨p, hp, hk⟩ := h
  have hmem : p ∈ s.blocks := List.mem_of_find?_eq_some hp
  have hpred := List.find?_some hp
  subst hk
  exact ⟨List.mem_map_of_mem _ hmem, by simpa using hpred⟩

theorem nodup_insert_middle (L1 fr L2 : List Nat) (m : Nat)
    (h : (L1 ++ (fr ++ L2)).Nodup) (hm : m ∉ L1 ++ (fr ++ L2)) :
    (L1 ++ ((m :: fr) ++ L2)).Nodup := by
  have hperm : (L1 ++ ((m :: fr) ++ L2)).Perm (m :: (L1 ++ (fr ++ L2))) := by
    have : L1 ++ ((m :: fr) ++ L2) = L1 ++ m :: (fr ++ L2) := by simp
    rw [this]
    exact List.perm_middle
  exact hperm.nodup_iff.mpr (List.nodup_cons.mpr ⟨hm, h⟩)

end PoolVerify

namespace PoolVerify

theorem recycle_full_top (s : State) (m t pb : Nat) (nx pv : Nat) (tb : Block)
    (hm : metaOwner s m = some pb)
    (hf : findBlock s.blocks pb = some ⟨[], nx, pv⟩)
    (h0 : s.top = t) (ht : t ≠ 0) (htb : findBlock s.blocks t = some tb)
    (hne : pb ≠ t) (hm0 : m ≠ 0) :
    recycle s m = some { s with
      blocks := setBlock (setBlock s.blocks t { tb with prev := pb }) pb ⟨[m], t, 0⟩,
      top := pb } := by
  have hX : findBlock (setBlock s.blocks t { tb with prev := pb }) pb
      = some ⟨[], nx, pv⟩ := by
    rw [findBlock_setBlock_ne _ _ _ _ hne]
    exact hf
  have hA : findBlock (setBlock (setBlock s.blocks t { tb with prev := pb }) pb
      ⟨[], t, 0⟩) pb = some ⟨[], t, 0⟩ := findBlock_setBlock_self _ _ _ _ hX
  have hcollapse : setBlock (setBlock (setBlock s.blocks t { tb with prev := pb }) pb
      ⟨[], t, 0⟩) pb ⟨[m], t, 0⟩
      = setBlock (setBlock s.blocks t { tb with prev := pb }) pb ⟨[m], t, 0⟩ :=
    setBlock_setBlock _ _ _ _
  have hB : findBlock (setBlock (setBlock s.blocks t { tb with prev := pb }) pb
      ⟨[m], t, 0⟩) pb = some ⟨[m], t, 0⟩ := by
    rw [← hcollapse]
    exact findBlock_setBlock_self _ _ _ _ hA
  rw [recycle]
  simp [hm, hf, h0, ht, htb, blockSet, hm0, hX, hA, hB, hcollapse]

end PoolVerify

namespace PoolVerify

theorem allFree_setBlock_samefree (bl : List (Nat × Block)) (k : Nat) (v old : Block)
    (h : findBlock bl k = some old) (hfr : v.free = old.free) :
    allFree (setBlock bl k v) = allFree bl := by
  obtain ⟨L1, L2, h1, h2⟩ := allFree_setBlock_decomp bl k v old h
  rw [h1, h2, hfr]

theorem chainRep_head (bl : List (Nat × Block)) (p b : Nat) (l : List Nat)
    (h : ChainRep bl p b l) (hb : b ≠ 0) :
    ∃ blk l', l = b :: l' ∧ findBlock bl b = some blk ∧ blk.prev = p
      ∧ blk.free ≠ [] ∧ ChainRep bl b blk.next l' ∧ b ∉ l' := by
  cases h with
  | nil => exact absurd rfl hb
  | cons p b blk l hb2 hfind hprev hfree htail hnot =>
    exact ⟨blk, l, rfl, hfind, hprev, hfree, htail, hnot⟩

end PoolVerify

namespace PoolVerify

theorem recycle_preserves (s : State) (m : Nat) (s' : State)
    (hInv : Inv s) (hfl : InFlight s m) (hr : recycle s m = some s') :
    Inv s' ∧ s'.cfg = s.cfg ∧ s'.gc = s.gc ∧ s'.idle = s.idle
      ∧ keysOf s'.blocks = keysOf s.blocks
      ∧ ∀ x, x ∈ allFree s'.blocks ↔ x = m ∨ x ∈ allFree s.blocks := by
  cases hmo : metaOwner s m with
  | none =>
    rw [recycle, hmo] at hr
    simp at hr
  | some pb =>
  obtain ⟨hpbk, hmm⟩ := metaOwner_spec s m pb hmo
  have hpb0 : pb ≠ 0 := hInv.keysPos pb hpbk
  have hm0 : m ≠ 0 := metas_pos s.cfg pb hpb0 hInv.alignGe m hmm
  have hni : m ≠ idleTestAddr pb :=
    metas_ne_idleTest s.cfg pb hInv.alignGe hInv.noClash m hmm
  obtain ⟨⟨fr0, nx0, pv0⟩, hfind0⟩ := findBlock_some_of_mem_keys s.blocks pb hpbk
  have hmemblocks : (pb, (⟨fr0, nx0, pv0⟩ : Block)) ∈ s.blocks := findBlock_mem _ _ _ hfind0
  by_cases hful : fr0 = []
  · subst hful
    by_cases h0 : s.top = 0
    · -- full block, no current top: spliced in as the sole chain member
      have hcalc := recycle_full_no_top s m pb nx0 pv0 hmo hfind0 h0 hm0
      rw [hcalc] at hr
      have hs' := (Option.some.inj hr).symm
      subst hs'
      obtain ⟨L1, L2, hd1, hd2⟩ :=
        allFree_setBlock_decomp s.blocks pb ⟨[m], 0, 0⟩ ⟨[], nx0, pv0⟩ hfind0
      have hpbidle : pb ∉ s.idle := by
        intro hmem
        obtain ⟨blk, hfb, hbf, _, _⟩ := hInv.idleOk pb hmem
        rw [hfind0] at hfb
        exact hbf ((Option.some.inj hfb).symm ▸ rfl)
      refine ⟨?_, rfl, rfl, rfl, keysOf_setBlock _ _ _, ?_⟩
      · refine ⟨hInv.alignGe, hInv.sizeGe, hInv.countGe, hInv.noClash, ?_, ?_, ?_, ?_, ?_, ?_, ?_, ?_, hInv.idleNodup⟩
        · show (keysOf (setBlock s.blocks pb ⟨[m], 0, 0⟩)).Nodup
          rw [keysOf_setBlock]
          exact hInv.keysNodup
        · show ∀ b ∈ keysOf (setBlock s.blocks pb ⟨[m], 0, 0⟩), b ≠ 0
          rw [keysOf_setBlock]
          exact hInv.keysPos
        · show ∀ a ∈ keysOf (setBlock s.blocks pb ⟨[m], 0, 0⟩), _
          rw [keysOf_setBlock]
          exact hInv.metasDisj
        · -- freeSub
          intro p hp x hx
          rcases mem_setBlock _ _ _ p hp with hmem | hmem
          · exact hInv.freeSub p hmem x hx
          · subst hmem
            simp only [List.mem_singleton] at hx
            subst hx
            exact hmm
        · -- chunksNodup
          show ((allFree (setBlock s.blocks pb ⟨[m], 0, 0⟩)) ++ s.gc).Nodup
          rw [hd2]
          have hold : (L1 ++ ([] ++ (L2 ++ s.gc))).Nodup := by
            have := hInv.chunksNodup
            unfold freeOrGc at this
            rw [hd1] at this
            simpa [List.append_assoc] using this
          have hmnot : m ∉ L1 ++ ([] ++ (L2 ++ s.gc)) := by
            obtain ⟨hf1, hf2⟩ := hfl
            rw [hd1] at hf1
            simp only [List.mem_append, List.not_mem_nil] at hf1 ⊢
            simp at hf1
            tauto
          have := nodup_insert_middle L1 [] (L2 ++ s.gc) m hold hmnot
          simpa [List.append_assoc] using this
        · -- gcOwned
          intro g hg
          obtain ⟨b, hb, hgb⟩ := hInv.gcOwned g hg
          exact ⟨b, by rw [keysOf_setBlock]; exact hb, hgb⟩
        · -- chain
          refine ⟨[pb], ?_, ?_⟩
          · refine ChainRep.cons _ _ _ ⟨[m], 0, 0⟩ _ hpb0 ?_ rfl (by simp) ?_ (by simp)
            · exact findBlock_setBlock_self _ _ _ _ hfind0
            · exact ChainRep.nil _ _
          · intro b hb
            simp only [List.mem_singleton]
            intro he
            subst he
            exact hpbidle hb
        · -- idleOk
          intro b hb
          obtain ⟨blk, hfb, hbf, hbn, hbp⟩ := hInv.idleOk b hb
          have hbne : b ≠ pb := fun he => hpbidle (he ▸ hb)
          exact ⟨blk, by rw [findBlock_setBlock_ne _ _ _ _ hbne]; exact hfb, hbf, hbn, hbp⟩
      · intro x
        show x ∈ allFree (setBlock s.blocks pb ⟨[m], 0, 0⟩) ↔ _
        rw [hd2, hd1]
        simp
        tauto
    · -- full block, top exists: spliced to the head of the chain
      obtain ⟨l, hc, hIl⟩ := hInv.chain
      obtain ⟨tb, l'', hleq, htbf, htbp, htbfr, htail, htnot⟩ :=
        chainRep_head s.blocks 0 s.top l hc h0
      have hne : pb ≠ s.top := by
        intro he
        rw [← he] at htbf
        rw [hfind0] at htbf
        have := Option.some.inj htbf
        rw [← this] at htbfr
        exact htbfr rfl
      have hcalc := recycle_full_top s m s.top pb nx0 pv0 tb hmo hfind0 rfl h0 htbf hne hm0
      rw [hcalc] at hr
      have hs' := (Option.some.inj hr).symm
      subst hs'
      have hXfind : findBlock (setBlock s.blocks s.top { tb with prev := pb }) pb
          = some ⟨[], nx0, pv0⟩ := by
        rw [findBlock_setBlock_ne _ _ _ _ hne]
        exact hfind0
      have hXsame : allFree (setBlock s.blocks s.top { tb with prev := pb })
          = allFree s.blocks :=
        allFree_setBlock_samefree _ _ _ tb htbf rfl
      obtain ⟨L1, L2, hd1, hd2⟩ :=
        allFree_setBlock_decomp (setBlock s.blocks s.top { tb with prev := pb }) pb
          ⟨[m], s.top, 0⟩ ⟨[], nx0, pv0⟩ hXfind
      rw [hXsame] at hd1
      have hpbidle : pb ∉ s.idle := by
        intro hmem
        obtain ⟨blk, hfb, hbf, _, _⟩ := hInv.idleOk pb hmem
        rw [hfind0] at hfb
        exact hbf ((Option.some.inj hfb).symm ▸ rfl)
      have hpbl : pb ∉ l := by
        intro hmem
        obtain ⟨xb, hxb, hxf⟩ := chainRep_mem s.blocks 0 s.top l hc pb hmem
        rw [hfind0] at hxb
        exact hxf ((Option.some.inj hxb).symm ▸ rfl)
      have hkeys2 : keysOf (setBlock (setBlock s.blocks s.top { tb with prev := pb }) pb
          ⟨[m], s.top, 0⟩) = keysOf s.blocks := by
        rw [keysOf_setBlock, keysOf_setBlock]
      refine ⟨?_, rfl, rfl, rfl, hkeys2, ?_⟩
      · refine ⟨hInv.alignGe, hInv.sizeGe, hInv.countGe, hInv.noClash, ?_, ?_, ?_, ?_, ?_, ?_, ?_, ?_, hInv.idleNodup⟩
        · rw [show keysOf _ = keysOf s.blocks from hkeys2]
          exact hInv.keysNodup
        · rw [show keysOf _ = keysOf s.blocks from hkeys2]
          exact hInv.keysPos
        · rw [show keysOf _ = keysOf s.blocks from hkeys2]
          exact hInv.metasDisj
        · -- freeSub
          intro p hp x hx
          rcases mem_setBlock _ _ _ p hp with hmem | hmem
          · rcases mem_setBlock _ _ _ p hmem with hmem2 | hmem2
            · exact hInv.freeSub p hmem2 x hx
            · subst hmem2
              exact hInv.freeSub (s.top, tb) (findBlock_mem _ _ _ htbf) x hx
          · subst hmem
            simp only [List.mem_singleton] at hx
            subst hx
            exact hmm
        · -- chunksNodup
          show ((allFree _) ++ s.gc).Nodup
          rw [hd2]
          have hold : (L1 ++ ([] ++ (L2 ++ s.gc))).Nodup := by
            have := hInv.chunksNodup
            unfold freeOrGc at this
            rw [hd1] at this
            simpa [List.append_assoc] using this
          have hmnot : m ∉ L1 ++ ([] ++ (L2 ++ s.gc)) := by
            obtain ⟨hf1, hf2⟩ := hfl
            rw [hd1] at hf1
            simp only [List.mem_append, List.not_mem_nil] at hf1 ⊢
            simp at hf1
            tauto
          have := nodup_insert_middle L1 [] (L2 ++ s.gc) m hold hmnot
          simpa [List.append_assoc] using this
        · -- gcOwned
          intro g hg
          obtain ⟨b, hb, hgb⟩ := hInv.gcOwned g hg
          exact ⟨b, by rw [show keysOf _ = keysOf s.blocks from hkeys2]; exact hb, hgb⟩
        · -- chain: pb :: s.top :: l''
          subst hleq
          have hnewtail : ChainRep (setBlock (setBlock s.blocks s.top { tb with prev := pb })
              pb ⟨[m], s.top, 0⟩) pb s.top (s.top :: l'') := by
            refine ChainRep.cons _ _ _ { tb with prev := pb } _ h0 ?_ rfl htbfr ?_ htnot
            · rw [findBlock_setBlock_ne _ pb s.top _ (Ne.symm hne)]
              exact findBlock_setBlock_self _ _ _ _ htbf
            · show ChainRep _ s.top tb.next l''
              refine chainRep_congr _ _ _ _ _ htail ?_
              intro x hx
              have hxt : x ≠ s.top := fun he => htnot (he ▸ hx)
              have hxpb : x ≠ pb := fun he => hpbl (he ▸ List.mem_cons_of_mem _ hx)
              rw [findBlock_setBlock_ne _ _ _ _ hxpb, findBlock_setBlock_ne _ _ _ _ hxt]
          refine ⟨pb :: s.top :: l'', ?_, ?_⟩
          · refine ChainRep.cons _ _ _ ⟨[m], s.top, 0⟩ _ hpb0 ?_ rfl (by simp) hnewtail ?_
            · have := findBlock_setBlock_self (setBlock s.blocks s.top { tb with prev := pb })
                pb ⟨[m], s.top, 0⟩ ⟨[], nx0, pv0⟩ hXfind
              exact this
            · intro hmem
              exact hpbl hmem
          · intro b hb
            simp only [List.mem_cons]
            rintro (he | he)
            · exact hpbidle (he ▸ hb)
            · exact hIl b hb (List.mem_cons.mpr he)
        · -- idleOk
          intro b hb
          obtain ⟨blk, hfb, hbf, hbn, hbp⟩ := hInv.idleOk b hb
          have hbpb : b ≠ pb := fun he => hpbidle (he ▸ hb)
          have hbt : b ≠ s.top := by
            intro he
            subst hleq
            exact hIl b hb (he ▸ List.mem_cons_self _ _)
          refine ⟨blk, ?_, hbf, hbn, hbp⟩
          rw [findBlock_setBlock_ne _ _ _ _ hbpb, findBlock_setBlock_ne _ _ _ _ hbt]
          exact hfb
      · intro x
        show x ∈ allFree _ ↔ _
        rw [hd2, hd1]
        simp
        tauto
  · -- block still had free chunks: plain push, no splice
    have hcalc := recycle_nonfull s m pb fr0 nx0 pv0 hmo hfind0 hful hm0 hni
    rw [hcalc] at hr
    have hs' := (Option.some.inj hr).symm
    subst hs'
    obtain ⟨L1, L2, hd1, hd2⟩ :=
      allFree_setBlock_decomp s.blocks pb ⟨m :: fr0, nx0, pv0⟩ ⟨fr0, nx0, pv0⟩ hfind0
    refine ⟨?_, rfl, rfl, rfl, keysOf_setBlock _ _ _, ?_⟩
    · refine ⟨hInv.alignGe, hInv.sizeGe, hInv.countGe, hInv.noClash, ?_, ?_, ?_, ?_, ?_, ?_, ?_, ?_, hInv.idleNodup⟩
      · rw [show keysOf (setBlock s.blocks pb ⟨m :: fr0, nx0, pv0⟩) = keysOf s.blocks from
          keysOf_setBlock _ _ _]
        exact hInv.keysNodup
      · rw [show keysOf (setBlock s.blocks pb ⟨m :: fr0, nx0, pv0⟩) = keysOf s.blocks from
          keysOf_setBlock _ _ _]
        exact hInv.keysPos
      · rw [show keysOf (setBlock s.blocks pb ⟨m :: fr0, nx0, pv0⟩) = keysOf s.blocks from
          keysOf_setBlock _ _ _]
        exact hInv.metasDisj
      · -- freeSub
        intro p hp x hx
        rcases mem_setBlock _ _ _ p hp with hmem | hmem
        · exact hInv.freeSub p hmem x hx
        · subst hmem
          simp only [List.mem_cons] at hx
          rcases hx with hx | hx
          · subst hx
            exact hmm
          · exact hInv.freeSub (pb, ⟨fr0, nx0, pv0⟩) hmemblocks x hx
      · -- chunksNodup
        show ((allFree (setBlock s.blocks pb ⟨m :: fr0, nx0, pv0⟩)) ++ s.gc).Nodup
        rw [hd2]
        have hold : (L1 ++ (fr0 ++ (L2 ++ s.gc))).Nodup := by
          have := hInv.chunksNodup
          unfold freeOrGc at this
          rw [hd1] at this
          simpa [List.append_assoc] using this
        have hmnot : m ∉ L1 ++ (fr0 ++ (L2 ++ s.gc)) := by
          obtain ⟨hf1, hf2⟩ := hfl
          rw [hd1] at hf1
          simp only [List.mem_append] at hf1 ⊢
          tauto
        have := nodup_insert_middle L1 fr0 (L2 ++ s.gc) m hold hmnot
        simpa [List.append_assoc] using this
      · -- gcOwned
        intro g hg
        obtain ⟨b, hb, hgb⟩ := hInv.gcOwned g hg
        refine ⟨b, ?_, hgb⟩
        rw [show keysOf (setBlock s.blocks pb ⟨m :: fr0, nx0, pv0⟩) = keysOf s.blocks from
          keysOf_setBlock _ _ _]
        exact hb
      · -- chain
        obtain ⟨l, hc, hIl⟩ := hInv.chain
        refine ⟨l, ?_, hIl⟩
        have := chainRep_set_same_links s.blocks 0 s.top l hc pb ⟨fr0, nx0, pv0⟩
          (m :: fr0) hfind0 (by simp)
        exact this
      · -- idleOk
        intro b hb
        obtain ⟨blk, hfb, hbf, hbn, hbp⟩ := hInv.idleOk b hb
        by_cases hbe : b = pb
        · subst hbe
          rw [hfind0] at hfb
          have hblk := (Option.some.inj hfb).symm
          subst hblk
          refine ⟨⟨m :: fr0, nx0, pv0⟩, ?_, by simp, hbn, hbp⟩
          exact findBlock_setBlock_self _ _ _ _ hfind0
        · exact ⟨blk, by rw [findBlock_setBlock_ne _ _ _ _ hbe]; exact hfb, hbf, hbn, hbp⟩
    · intro x
      show x ∈ allFree (setBlock s.blocks pb ⟨m :: fr0, nx0, pv0⟩) ↔ _
      rw [hd2, hd1]
      simp
      tauto

end PoolVerify

namespace PoolVerify

theorem constructGo_pop (s : State) (t c : Nat) (fr : List Nat) (nx pv : Nat)
    (h0 : s.top = t) (hf : findBlock s.blocks t = some ⟨c :: fr, nx, pv⟩) (hfr : fr ≠ []) :
    constructGo s 0 = some (c + 8, { s with blocks := setBlock s.blocks t ⟨fr, nx, pv⟩ }) := by
  rw [constructGo]
  simp [h0, hf, blockGet, hfr]

theorem constructGo_pop_last (s : State) (t c : Nat) (pv : Nat)
    (h0 : s.top = t) (hf : findBlock s.blocks t = some ⟨[c], 0, pv⟩) :
    constructGo s 0
      = some (c + 8, { s with blocks := setBlock s.blocks t ⟨[], 0, pv⟩, top := 0 }) := by
  rw [constructGo]
  simp [h0, hf, blockGet]

theorem constructGo_advance (s : State) (t c nt pv : Nat) (ntb : Block)
    (h0 : s.top = t) (ht : t ≠ 0) (hf : findBlock s.blocks t = some ⟨[c], nt, pv⟩)
    (hnt : nt ≠ 0) (hne : nt ≠ t)
    (hntb : findBlock s.blocks nt = some ntb) (hpv : ntb.prev = t) :
    constructGo s 0 = some (c + 8,
      { s with blocks := setBlock (setBlock s.blocks t ⟨[], 0, pv⟩) nt { ntb with prev := 0 },
               top := nt }) := by
  have h1 : findBlock (setBlock s.blocks t ⟨[], nt, pv⟩) nt = some ntb := by
    rw [findBlock_setBlock_ne _ _ _ _ hne]
    exact hntb
  have h2 : findBlock (setBlock s.blocks t ⟨[], nt, pv⟩) t = some ⟨[], nt, pv⟩ :=
    findBlock_setBlock_self _ _ _ _ hf
  have h3 : setBlock (setBlock s.blocks t ⟨[], nt, pv⟩) t ⟨[], 0, pv⟩
      = setBlock s.blocks t ⟨[], 0, pv⟩ := setBlock_setBlock _ _ _ _
  have h4 : findBlock (setBlock s.blocks t ⟨[], 0, pv⟩) nt = some ntb := by
    rw [findBlock_setBlock_ne _ _ _ _ hne]
    exact hntb
  rw [constructGo]
  simp [h0, hf, blockGet, hnt, h1, h2, h3, h4, hpv, ht]

theorem constructGo_gc (s : State) (g : Nat) (hg : g ≠ 0) :
    constructGo s g = some (g + 8, s) := by
  rw [constructGo]
  simp [hg]

theorem construct_unfold_top (s : State) (a : Option Nat) (ht : s.top ≠ 0) :
    construct s a = constructGo s 0 := by
  rw [construct]
  simp [ht]

theorem construct_unfold_idle (s : State) (a : Option Nat) (b : Nat) (irest : List Nat)
    (h0 : s.top = 0) (hi : s.idle = b :: irest) :
    construct s a = constructGo { s with top := b, idle := irest } 0 := by
  rw [construct]
  simp [h0, hi]

theorem construct_unfold_gc (s : State) (a : Option Nat) (g : Nat) (gr : List Nat)
    (h0 : s.top = 0) (hi : s.idle = []) (hg : s.gc = g :: gr) :
    construct s a = constructGo { s with gc := gr } g := by
  rw [construct]
  simp [h0, hi, hg]

theorem construct_unfold_alloc (s : State) (base : Nat)
    (h0 : s.top = 0) (hi : s.idle = []) (hg : s.gc = []) (hb : base ≠ 0) :
    construct s (some base)
      = constructGo { s with blocks := (base, ⟨s.cfg.metas base, 0, 0⟩) :: s.blocks,
                             top := base } 0 := by
  rw [construct]
  simp [h0, hi, hg, setup, hb]

end PoolVerify

namespace PoolVerify

theorem pop_field_pack (s : State) (t c : Nat) (fr : List Nat) (nx pv nx2 pv2 : Nat)
    (hInv : Inv s) (hfind : findBlock s.blocks t = some ⟨c :: fr, nx, pv⟩) :
    keysOf (setBlock s.blocks t ⟨fr, nx2, pv2⟩) = keysOf s.blocks
    ∧ (∀ p ∈ setBlock s.blocks t ⟨fr, nx2, pv2⟩, ∀ x ∈ p.2.free, x ∈ s.cfg.metas p.1)
    ∧ (allFree (setBlock s.blocks t ⟨fr, nx2, pv2⟩) ++ s.gc).Nodup
    ∧ c ∉ allFree (setBlock s.blocks t ⟨fr, nx2, pv2⟩) ∧ c ∉ s.gc
    ∧ ∃ bb ∈ keysOf s.blocks, c ∈ s.cfg.metas bb := by
  obtain ⟨L1, L2, hd1, hd2⟩ :=
    allFree_setBlock_decomp s.blocks t ⟨fr, nx2, pv2⟩ ⟨c :: fr, nx, pv⟩ hfind
  have hperm : (allFree s.blocks ++ s.gc).Perm (c :: (L1 ++ (fr ++ (L2 ++ s.gc)))) := by
    rw [hd1]
    have h1 : L1 ++ ((c :: fr) ++ L2) ++ s.gc = L1 ++ c :: (fr ++ (L2 ++ s.gc)) := by simp
    rw [h1]
    exact List.perm_middle
  have hnodup := hInv.chunksNodup
  unfold freeOrGc at hnodup
  have hcons := hperm.nodup_iff.mp hnodup
  rw [List.nodup_cons] at hcons
  obtain ⟨hcnot, hrest⟩ := hcons
  have hmemblocks : (t, (⟨c :: fr, nx, pv⟩ : Block)) ∈ s.blocks := findBlock_mem _ _ _ hfind
  refine ⟨keysOf_setBlock _ _ _, ?_, ?_, ?_, ?_, ?_⟩
  · intro p hp x hx
    rcases mem_setBlock _ _ _ p hp with hmem | hmem
    · exact hInv.freeSub p hmem x hx
    · subst hmem
      exact hInv.freeSub (t, ⟨c :: fr, nx, pv⟩) hmemblocks x (List.mem_cons_of_mem _ hx)
  · rw [hd2]
    have : (L1 ++ (fr ++ L2)) ++ s.gc = L1 ++ (fr ++ (L2 ++ s.gc)) := by simp
    rw [this]
    exact hrest
  · rw [hd2]
    intro hcmem
    apply hcnot
    simp only [List.mem_append] at hcmem ⊢
    tauto
  · intro hcmem
    apply hcnot
    simp only [List.mem_append]
    tauto
  · exact ⟨t, List.mem_map_of_mem _ hmemblocks,
      hInv.freeSub (t, ⟨c :: fr, nx, pv⟩) hmemblocks c (List.mem_cons_self _ _)⟩

end PoolVerify

namespace PoolVerify

theorem inv_top_go (s : State) (u : Nat) (s' : State)
    (hInv : Inv s) (ht : s.top ≠ 0)
    (hc : constructGo s 0 = some (u, s')) :
    Inv s' ∧ s'.cfg = s.cfg ∧ s'.gc = s.gc ∧ s'.idle = s.idle
      ∧ keysOf s'.blocks = keysOf s.blocks
      ∧ ∃ m, u = m + 8 ∧ m ∈ allFree s.blocks ∧ m ∉ allFree s'.blocks ∧ m ∉ s'.gc
          ∧ ∃ bb ∈ keysOf s.blocks, m ∈ s.cfg.metas bb := by
  obtain ⟨l, hch, hIl⟩ := hInv.chain
  obtain ⟨tb, l'', hleq, htbf, htbp, htbfr, htail, htnot⟩ :=
    chainRep_head s.blocks 0 s.top l hch ht
  have htidle : s.top ∉ s.idle := by
    intro hmem
    exact hIl s.top hmem (hleq ▸ List.mem_cons_self _ _)
  obtain ⟨c, fr, hfree⟩ : ∃ c fr, tb.free = c :: fr := by
    cases hfr : tb.free with
    | nil => exact absurd hfr htbfr
    | cons c fr => exact ⟨c, fr, rfl⟩
  have htbf2 : findBlock s.blocks s.top = some ⟨c :: fr, tb.next, tb.prev⟩ := by
    rw [htbf]
    cases tb
    simp_all
  have hcsrc : c ∈ allFree s.blocks :=
    (mem_allFree _ _).mpr ⟨(s.top, ⟨c :: fr, tb.next, tb.prev⟩),
      findBlock_mem _ _ _ htbf2, List.mem_cons_self _ _⟩
  by_cases hfr : fr = []
  · subst hfr
    by_cases hnt : tb.next = 0
    · -- single free chunk, no next block: top becomes null
      have htbf3 : findBlock s.blocks s.top = some ⟨[c], 0, tb.prev⟩ := by
        rw [htbf2, hnt]
      have hcalc := constructGo_pop_last s s.top c tb.prev rfl htbf3
      rw [hcalc] at hc
      have h1 := Option.some.inj hc
      obtain ⟨hu, hs'⟩ := Prod.ext_iff.mp h1
      simp only at hu hs'
      subst hu
      subst hs'
      obtain ⟨hkeys, hfsub, hnodup, hcnot, hcgc, howner⟩ :=
        pop_field_pack s s.top c [] 0 tb.prev 0 tb.prev hInv htbf3
      have hl2 : l'' = [] := by
        rw [hnt] at htail
        exact chainRep_zero _ _ _ htail
      refine ⟨⟨hInv.alignGe, hInv.sizeGe, hInv.countGe, hInv.noClash, ?_, ?_, ?_, hfsub, hnodup, ?_, ?_, ?_, hInv.idleNodup⟩,
        rfl, rfl, rfl, hkeys, c, rfl, hcsrc, hcnot, hcgc, howner⟩
      · rw [hkeys]; exact hInv.keysNodup
      · rw [hkeys]; exact hInv.keysPos
      · rw [hkeys]; exact hInv.metasDisj
      · intro g hg
        obtain ⟨b, hb, hgb⟩ := hInv.gcOwned g hg
        exact ⟨b, by rw [hkeys]; exact hb, hgb⟩
      · exact ⟨[], ChainRep.nil _ _, by simp⟩
      · intro b hb
        obtain ⟨blk, hfb, hbf, hbn, hbp⟩ := hInv.idleOk b hb
        have hbne : b ≠ s.top := fun he => htidle (he ▸ hb)
        exact ⟨blk, by rw [findBlock_setBlock_ne _ _ _ _ hbne]; exact hfb, hbf, hbn, hbp⟩
    · -- single free chunk, advance top to the next block
      obtain ⟨ntb, l3, hleq2, hntf, hntp, hntfr, htail3, hntnot⟩ :=
        chainRep_head s.blocks s.top tb.next l'' htail hnt
      have hnet : tb.next ≠ s.top := by
        intro he
        apply htnot
        rw [hleq2, he]
        exact List.mem_cons_self _ _
      have hcalc := constructGo_advance s s.top c tb.next tb.prev ntb rfl ht htbf2 hnt hnet
        hntf hntp
      rw [hcalc] at hc
      have h1 := Option.some.inj hc
      obtain ⟨hu, hs'⟩ := Prod.ext_iff.mp h1
      simp only at hu hs'
      subst hu
      subst hs'
      obtain ⟨hkeys, hfsub, hnodup, hcnot, hcgc, howner⟩ :=
        pop_field_pack s s.top c [] tb.next tb.prev 0 tb.prev hInv htbf2
      have hntf1 : findBlock (setBlock s.blocks s.top ⟨[], 0, tb.prev⟩) tb.next
          = some ntb := by
        rw [findBlock_setBlock_ne _ _ _ _ hnet]
        exact hntf
      have hsame : allFree (setBlock (setBlock s.blocks s.top ⟨[], 0, tb.prev⟩) tb.next
          { ntb with prev := 0 }) = allFree (setBlock s.blocks s.top ⟨[], 0, tb.prev⟩) :=
        allFree_setBlock_samefree _ _ _ ntb hntf1 rfl
      have hkeys2 : keysOf (setBlock (setBlock s.blocks s.top ⟨[], 0, tb.prev⟩) tb.next
          { ntb with prev := 0 }) = keysOf s.blocks := by
        rw [keysOf_setBlock, keysOf_setBlock]
      refine ⟨⟨hInv.alignGe, hInv.sizeGe, hInv.countGe, hInv.noClash, ?_, ?_, ?_, ?_, ?_, ?_, ?_, ?_, hInv.idleNodup⟩,
        rfl, rfl, rfl, hkeys2, c, rfl, hcsrc, by rw [hsame]; exact hcnot, hcgc, howner⟩
      · rw [hkeys2]; exact hInv.keysNodup
      · rw [hkeys2]; exact hInv.keysPos
      · rw [hkeys2]; exact hInv.metasDisj
      · intro p hp x hx
        rcases mem_setBlock _ _ _ p hp with hmem | hmem
        · exact hfsub p hmem x hx
        · subst hmem
          exact hInv.freeSub (tb.next, ntb) (findBlock_mem _ _ _ hntf) x hx
      · show (allFree _ ++ s.gc).Nodup
        rw [hsame]
        exact hnodup
      · intro g hg
        obtain ⟨b, hb, hgb⟩ := hInv.gcOwned g hg
        exact ⟨b, by rw [hkeys2]; exact hb, hgb⟩
      · -- chain becomes tb.next :: l3
        refine ⟨tb.next :: l3, ?_, ?_⟩
        · refine ChainRep.cons _ _ _ { ntb with prev := 0 } _ hnt ?_ rfl hntfr ?_ hntnot
          · exact findBlock_setBlock_self _ _ _ _ hntf1
          · show ChainRep _ tb.next ntb.next l3
            refine chainRep_congr _ _ _ _ _ htail3 ?_
            intro x hx
            have hxnt : x ≠ tb.next := fun he => hntnot (he ▸ hx)
            have hxt : x ≠ s.top := by
              intro he
              apply htnot
              rw [hleq2]
              exact List.mem_cons_of_mem _ (he ▸ hx)
            rw [findBlock_setBlock_ne _ _ _ _ hxnt, findBlock_setBlock_ne _ _ _ _ hxt]
        · intro b hb
          have hIb := hIl b hb
          rw [hleq] at hIb
          intro hmem
          apply hIb
          rw [hleq2]
          exact List.mem_cons_of_mem _ hmem
      · intro b hb
        obtain ⟨blk, hfb, hbf, hbn, hbp⟩ := hInv.idleOk b hb
        have hbt : b ≠ s.top := fun he => htidle (he ▸ hb)
        have hbnt : b ≠ tb.next := by
          intro he
          have hIb := hIl b hb
          rw [hleq, hleq2] at hIb
          exact hIb (he ▸ List.mem_cons_of_mem _ (List.mem_cons_self _ _))
        refine ⟨blk, ?_, hbf, hbn, hbp⟩
        rw [findBlock_setBlock_ne _ _ _ _ hbnt, findBlock_setBlock_ne _ _ _ _ hbt]
        exact hfb
  · -- at least two free chunks: plain pop
    have hcalc := constructGo_pop s s.top c fr tb.next tb.prev rfl htbf2 hfr
    rw [hcalc] at hc
    have h1 := Option.some.inj hc
    obtain ⟨hu, hs'⟩ := Prod.ext_iff.mp h1
    simp only at hu hs'
    subst hu
    subst hs'
    obtain ⟨hkeys, hfsub, hnodup, hcnot, hcgc, howner⟩ :=
      pop_field_pack s s.top c fr tb.next tb.prev tb.next tb.prev hInv htbf2
    refine ⟨⟨hInv.alignGe, hInv.sizeGe, hInv.countGe, hInv.noClash, ?_, ?_, ?_, hfsub, hnodup, ?_, ?_, ?_, hInv.idleNodup⟩,
      rfl, rfl, rfl, hkeys, c, rfl, hcsrc, hcnot, hcgc, howner⟩
    · rw [hkeys]; exact hInv.keysNodup
    · rw [hkeys]; exact hInv.keysPos
    · rw [hkeys]; exact hInv.metasDisj
    · intro g hg
      obtain ⟨b, hb, hgb⟩ := hInv.gcOwned g hg
      exact ⟨b, by rw [hkeys]; exact hb, hgb⟩
    · refine ⟨l, ?_, hIl⟩
      exact chainRep_set_same_links s.blocks 0 s.top l hch s.top
        ⟨c :: fr, tb.next, tb.prev⟩ fr htbf2 hfr
    · intro b hb
      obtain ⟨blk, hfb, hbf, hbn, hbp⟩ := hInv.idleOk b hb
      have hbne : b ≠ s.top := fun he => htidle (he ▸ hb)
      exact ⟨blk, by rw [findBlock_setBlock_ne _ _ _ _ hbne]; exact hfb, hbf, hbn, hbp⟩

end PoolVerify

namespace PoolVerify

theorem findBlock_some_mem_keys (bl : List (Nat × Block)) (b : Nat) (blk : Block)
    (h : findBlock bl b = some blk) : b ∈ keysOf bl :=
  List.mem_map_of_mem _ (findBlock_mem bl b blk h)

theorem metas_ne_nil (cfg : Cfg) (b : Nat) (hc : 1 ≤ cfg.count) :
    cfg.metas b ≠ [] := by
  unfold Cfg.metas
  simp only [ne_eq, List.map_eq_nil_iff, List.range_eq_nil]
  omega

theorem inv_idle_pop (s : State) (b : Nat) (irest : List Nat)
    (hInv : Inv s) (h0 : s.top = 0) (hi : s.idle = b :: irest) :
    Inv { s with top := b, idle := irest } ∧ b ≠ 0 := by
  obtain ⟨blk, hfb, hbf, hbn, hbp⟩ := hInv.idleOk b (by rw [hi]; exact List.mem_cons_self _ _)
  have hb0 : b ≠ 0 := hInv.keysPos b (findBlock_some_mem_keys _ _ _ hfb)
  have hnd : s.idle.Nodup := hInv.idleNodup
  rw [hi, List.nodup_cons] at hnd
  refine ⟨⟨hInv.alignGe, hInv.sizeGe, hInv.countGe, hInv.noClash, hInv.keysNodup,
    hInv.keysPos, hInv.metasDisj, hInv.freeSub, hInv.chunksNodup, hInv.gcOwned, ?_, ?_, hnd.2⟩, hb0⟩
  · refine ⟨[b], ?_, ?_⟩
    · refine ChainRep.cons _ _ _ blk _ hb0 hfb hbp hbf ?_ (by simp)
      rw [hbn]
      exact ChainRep.nil _ _
    · intro b' hb'
      simp only [List.mem_singleton]
      intro he
      subst he
      exact hnd.1 hb'
  · intro b' hb'
    exact hInv.idleOk b' (by rw [hi]; exact List.mem_cons_of_mem _ hb')

theorem inv_fresh (s : State) (base : Nat)
    (hInv : Inv s) (hi : s.idle = []) (hg : s.gc = [])
    (hb0 : base ≠ 0) (hbk : base ∉ keysOf s.blocks)
    (hdisj : ∀ a ∈ keysOf s.blocks, ∀ x ∈ s.cfg.metas base, x ∉ s.cfg.metas a) :
    Inv { s with blocks := (base, ⟨s.cfg.metas base, 0, 0⟩) :: s.blocks, top := base } := by
  have hkeysN : keysOf ((base, (⟨s.cfg.metas base, 0, 0⟩ : Block)) :: s.blocks)
      = base :: keysOf s.blocks := rfl
  refine ⟨hInv.alignGe, hInv.sizeGe, hInv.countGe, hInv.noClash, ?_, ?_, ?_, ?_, ?_, ?_, ?_, ?_, ?_⟩
  · rw [hkeysN, List.nodup_cons]
    exact ⟨hbk, hInv.keysNodup⟩
  · rw [hkeysN]
    intro b hb
    rcases List.mem_cons.mp hb with he | he
    · subst he; exact hb0
    · exact hInv.keysPos b he
  · rw [hkeysN]
    intro a ha b hb hab x hxa
    rcases List.mem_cons.mp ha with hea | hea
    all_goals rcases List.mem_cons.mp hb with heb | heb
    · subst hea; subst heb; exact absurd rfl hab
    · subst hea
      exact hdisj b heb x hxa
    · subst heb
      intro hxb
      exact hdisj a hea x hxb hxa
    · exact hInv.metasDisj a hea b heb hab x hxa
  · intro p hp x hx
    rcases List.mem_cons.mp hp with he | he
    · subst he
      exact hx
    · exact hInv.freeSub p he x hx
  · show ((s.cfg.metas base ++ allFree s.blocks) ++ s.gc).Nodup
    rw [hg, List.append_nil]
    refine List.Nodup.append (metas_nodup s.cfg base hInv.sizeGe) ?_ ?_
    · have := hInv.chunksNodup
      unfold freeOrGc at this
      exact this.of_append_left
    · intro x hxm hxf
      obtain ⟨p, hp, hpf⟩ := (mem_allFree _ _).mp hxf
      exact hdisj p.1 (List.mem_map_of_mem _ hp) x hxm (hInv.freeSub p hp x hpf)
  · intro g hg2
    rw [hg] at hg2
    exact absurd hg2 (List.not_mem_nil g)
  · refine ⟨[base], ?_, ?_⟩
    · refine ChainRep.cons _ _ _ ⟨s.cfg.metas base, 0, 0⟩ _ hb0 ?_ rfl
        (metas_ne_nil s.cfg base hInv.countGe) ?_ (by simp)
      · simp [findBlock]
      · exact ChainRep.nil _ _
    · intro b hb
      rw [hi] at hb
      exact absurd hb (List.not_mem_nil b)
  · intro b hb
    rw [hi] at hb
    exact absurd hb (List.not_mem_nil b)
  · rw [hi]
    exact List.nodup_nil

end PoolVerify

namespace PoolVerify

theorem construct_spec (s : State) (a : Option Nat) (u : Nat) (s' : State)
    (hInv : Inv s) (hfresh : AllocFresh s a)
    (hc : construct s a = some (u, s')) (hu : u ≠ 0) :
    Inv s' ∧ s'.cfg = s.cfg
    ∧ (∀ b ∈ keysOf s.blocks, b ∈ keysOf s'.blocks)
    ∧ ∃ m, u = m + 8 ∧ m ∉ allFree s'.blocks ∧ m ∉ s'.gc
        ∧ (m ∈ allFree s.blocks ∨ m ∈ s.gc ∨ ∃ base, a = some base ∧ m ∈ s.cfg.metas base)
        ∧ ∃ bb ∈ keysOf s'.blocks, m ∈ s'.cfg.metas bb := by
  by_cases ht : s.top = 0
  · cases hi : s.idle with
    | cons b irest =>
      rw [construct_unfold_idle s a b irest ht hi] at hc
      obtain ⟨hInvI, hb0⟩ := inv_idle_pop s b irest hInv ht hi
      obtain ⟨hInv', hcfg, hgc, hidle, hkeys, m, hm8, hmsrc, hmf, hmg, bb, hbbk, hbbm⟩ :=
        inv_top_go { s with top := b, idle := irest } u s' hInvI hb0 hc
      exact ⟨hInv', hcfg, fun b' hb' => by rw [hkeys]; exact hb', m, hm8, hmf, hmg,
        Or.inl hmsrc, bb, by rw [hkeys]; exact hbbk, by rw [hcfg]; exact hbbm⟩
    | nil =>
      cases hgq : s.gc with
      | cons g gr =>
        rw [construct_unfold_gc s a g gr ht hi hgq] at hc
        have hgown : ∃ b ∈ keysOf s.blocks, g ∈ s.cfg.metas b :=
          hInv.gcOwned g (by rw [hgq]; exact List.mem_cons_self _ _)
        obtain ⟨bg, hbgk, hbgm⟩ := hgown
        have hg0 : g ≠ 0 :=
          metas_pos s.cfg bg (hInv.keysPos bg hbgk) hInv.alignGe g hbgm
        rw [constructGo_gc _ g hg0] at hc
        have h1 := Option.some.inj hc
        obtain ⟨hu2, hs'⟩ := Prod.ext_iff.mp h1
        simp only at hu2 hs'
        subst hu2
        subst hs'
        have hnodup := hInv.chunksNodup
        unfold freeOrGc at hnodup
        rw [hgq] at hnodup
        have hgnotfree : g ∉ allFree s.blocks := by
          intro hmem
          exact (List.disjoint_of_nodup_append hnodup) hmem (List.mem_cons_self _ _)
        have hgnotgr : g ∉ gr := by
          have := hnodup.of_append_right
          rw [List.nodup_cons] at this
          exact this.1
        refine ⟨⟨hInv.alignGe, hInv.sizeGe, hInv.countGe, hInv.noClash, hInv.keysNodup,
          hInv.keysPos, hInv.metasDisj, hInv.freeSub, ?_, ?_, ?_, ?_, hInv.idleNodup⟩,
          rfl, fun b' hb' => hb', g, rfl, hgnotfree, hgnotgr,
          Or.inr (Or.inl (List.mem_cons_self _ _)), bg, hbgk, hbgm⟩
        · show (allFree s.blocks ++ gr).Nodup
          refine List.Nodup.sublist ?_ hnodup
          exact List.Sublist.append (List.Sublist.refl _) (List.sublist_cons_self _ _)
        · intro g' hg'
          exact hInv.gcOwned g' (by rw [hgq]; exact List.mem_cons_of_mem _ hg')
        · exact hInv.chain
        · exact hInv.idleOk
      | nil =>
        cases a with
        | none =>
          rw [construct, ht] at hc
          simp [hi, hgq, setup] at hc
          exact absurd hc.1.symm hu
        | some base =>
          obtain ⟨hb0, hbk, hdisj⟩ := hfresh base rfl
          rw [construct_unfold_alloc s base ht hi hgq hb0] at hc
          have hInvN := inv_fresh s base hInv hi hgq hb0 hbk hdisj
          obtain ⟨hInv', hcfg, hgc, hidle, hkeys, m, hm8, hmsrc, hmf, hmg, bb, hbbk, hbbm⟩ :=
            inv_top_go _ u s' hInvN hb0 hc
          have hmsrc2 : m ∈ allFree s.blocks ∨ m ∈ ([] : List Nat)
              ∨ ∃ base2, some base = some base2 ∧ m ∈ s.cfg.metas base2 := by
            have : m ∈ allFree ((base, (⟨s.cfg.metas base, 0, 0⟩ : Block)) :: s.blocks) :=
              hmsrc
            have he : allFree ((base, (⟨s.cfg.metas base, 0, 0⟩ : Block)) :: s.blocks)
                = s.cfg.metas base ++ allFree s.blocks := rfl
            rw [he, List.mem_append] at this
            rcases this with h | h
            · exact Or.inr (Or.inr ⟨base, rfl, h⟩)
            · exact Or.inl h
          refine ⟨hInv', hcfg, ?_, m, hm8, hmf, hmg, hmsrc2, bb, by rw [hkeys]; exact hbbk,
            by rw [hcfg]; exact hbbm⟩
          intro b' hb'
          rw [hkeys]
          show b' ∈ keysOf ((base, (⟨s.cfg.metas base, 0, 0⟩ : Block)) :: s.blocks)
          exact List.mem_cons_of_mem _ hb'
  · rw [construct_unfold_top s a ht] at hc
    obtain ⟨hInv', hcfg, hgc, hidle, hkeys, m, hm8, hmsrc, hmf, hmg, bb, hbbk, hbbm⟩ :=
      inv_top_go s u s' hInv ht hc
    exact ⟨hInv', hcfg, fun b' hb' => by rw [hkeys]; exact hb', m, hm8, hmf, hmg,
      Or.inl hmsrc, bb, by rw [hkeys]; exact hbbk, by rw [hcfg]; exact hbbm⟩

end PoolVerify

namespace PoolVerify

theorem C7_no_double_issue (s : State) (a1 a2 : Option Nat) (u1 u2 : Nat) (s1 s2 : State)
    (hInv : Inv s) (hf1 : AllocFresh s a1) (hf2 : AllocFresh s1 a2)
    (h1 : construct s a1 = some (u1, s1)) (h2 : construct s1 a2 = some (u2, s2))
    (hu1 : u1 ≠ 0) (hu2 : u2 ≠ 0) :
    u1 ≠ u2 ∧ u1 - 8 ∉ allFree s1.blocks ∧ u1 - 8 ∉ s1.gc := by
  obtain ⟨hInv1, hcfg1, hkeys1, m1, hm18, hm1f, hm1g, _, bb1, hbb1k, hbb1m⟩ :=
    construct_spec s a1 u1 s1 hInv hf1 h1 hu1
  obtain ⟨hInv2, hcfg2, hkeys2, m2, hm28, hm2f, hm2g, hm2src, bb2, hbb2k, hbb2m⟩ :=
    construct_spec s1 a2 u2 s2 hInv1 hf2 h2 hu2
  have hm12 : m1 ≠ m2 := by
    rcases hm2src with hsrc | hsrc | ⟨base2, hbase2, hmm2⟩
    · intro he
      exact hm1f (he ▸ hsrc)
    · intro he
      exact hm1g (he ▸ hsrc)
    · obtain ⟨hb20, hb2k, hdisj⟩ := hf2 base2 hbase2
      intro he
      exact hdisj bb1 hbb1k m2 hmm2 (he ▸ hbb1m)
  subst hm18
  subst hm28
  refine ⟨by omega, ?_, ?_⟩
  · have he : m1 + 8 - 8 = m1 := by omega
    rw [he]
    exact hm1f
  · have he : m1 + 8 - 8 = m1 := by omega
    rw [he]
    exact hm1g

end PoolVerify

namespace PoolVerify

theorem recycle_some (s : State) (m pb : Nat) (hInv : Inv s)
    (hmo : metaOwner s m = some pb) : ∃ s', recycle s m = some s' := by
  obtain ⟨hpbk, hmm⟩ := metaOwner_spec s m pb hmo
  have hpb0 := hInv.keysPos pb hpbk
  have hm0 := metas_pos s.cfg pb hpb0 hInv.alignGe m hmm
  have hni := metas_ne_idleTest s.cfg pb hInv.alignGe hInv.noClash m hmm
  obtain ⟨⟨fr0, nx0, pv0⟩, hfind0⟩ := findBlock_some_of_mem_keys s.blocks pb hpbk
  by_cases hful : fr0 = []
  · subst hful
    by_cases h0 : s.top = 0
    · exact ⟨_, recycle_full_no_top s m pb nx0 pv0 hmo hfind0 h0 hm0⟩
    · obtain ⟨l, hch, hIl⟩ := hInv.chain
      obtain ⟨tb, l'', hleq, htbf, htbp, htbfr, htail, htnot⟩ :=
        chainRep_head s.blocks 0 s.top l hch h0
      have hne : pb ≠ s.top := by
        intro he
        rw [← he] at htbf
        rw [hfind0] at htbf
        have h2 := Option.some.inj htbf
        rw [← h2] at htbfr
        exact htbfr rfl
      exact ⟨_, recycle_full_top s m s.top pb nx0 pv0 tb hmo hfind0 rfl h0 htbf hne hm0⟩
  · exact ⟨_, recycle_nonfull s m pb fr0 nx0 pv0 hmo hfind0 hful hm0 hni⟩

theorem metaOwner_some_of_owned (s : State) (g : Nat)
    (h : ∃ b ∈ keysOf s.blocks, g ∈ s.cfg.metas b) :
    ∃ pb, metaOwner s g = some pb := by
  obtain ⟨b, hb, hgb⟩ := h
  cases hfo : s.blocks.find? (fun p => (s.cfg.metas p.1).contains g) with
  | some p => exact ⟨p.1, by unfold metaOwner; rw [hfo]; rfl⟩
  | none =>
    exfalso
    have hnone := List.find?_eq_none.mp hfo
    obtain ⟨p, hp, hpe⟩ := List.mem_map.mp hb
    refine hnone p hp ?_
    simp only [List.contains_iff_exists_mem_beq]
    exact ⟨g, by rw [hpe]; exact hgb, by simp⟩

theorem drainGC_preserves (gcl : List Nat) : ∀ (s : State), Inv s → s.gc = [] →
    (∀ g ∈ gcl, g ∉ allFree s.blocks) → gcl.Nodup →
    (∀ g ∈ gcl, ∃ b ∈ keysOf s.blocks, g ∈ s.cfg.metas b) →
    ∃ s', drainGC gcl s = some s' ∧ Inv s' := by
  induction gcl with
  | nil =>
    intro s hInv _ _ _ _
    exact ⟨s, rfl, hInv⟩
  | cons g rest ih =>
    intro s hInv hgc hnf hnd hown
    obtain ⟨pb, hmo⟩ := metaOwner_some_of_owned s g (hown g (List.mem_cons_self _ _))
    obtain ⟨s1, hr⟩ := recycle_some s g pb hInv hmo
    have hfl : InFlight s g :=
      ⟨hnf g (List.mem_cons_self _ _), by rw [hgc]; exact List.not_mem_nil g⟩
    obtain ⟨hInv1, hcfg1, hgc1, hidle1, hkeys1, hiff⟩ := recycle_preserves s g s1 hInv hfl hr
    rw [List.nodup_cons] at hnd
    have hnf2 : ∀ g' ∈ rest, g' ∉ allFree s1.blocks := by
      intro g' hg' hmem
      rcases (hiff g').mp hmem with he | he
      · exact hnd.1 (he ▸ hg')
      · exact hnf g' (List.mem_cons_of_mem _ hg') he
    have hown2 : ∀ g' ∈ rest, ∃ b ∈ keysOf s1.blocks, g' ∈ s1.cfg.metas b := by
      intro g' hg'
      obtain ⟨b, hbk, hbm⟩ := hown g' (List.mem_cons_of_mem _ hg')
      exact ⟨b, by rw [hkeys1]; exact hbk, by rw [hcfg1]; exact hbm⟩
    obtain ⟨s', hrun, hInv'⟩ := ih s1 hInv1 (by rw [hgc1]; exact hgc) hnf2 hnd.2 hown2
    refine ⟨s', ?_, hInv'⟩
    show drainGC (g :: rest) s = some s'
    rw [drainGC, hr]
    exact hrun

theorem inv_gc_clear (s : State) (hInv : Inv s) : Inv { s with gc := [] } := by
  refine ⟨hInv.alignGe, hInv.sizeGe, hInv.countGe, hInv.noClash, hInv.keysNodup,
    hInv.keysPos, hInv.metasDisj, hInv.freeSub, ?_, ?_, hInv.chain, hInv.idleOk,
    hInv.idleNodup⟩
  · show (allFree s.blocks ++ []).Nodup
    rw [List.append_nil]
    have := hInv.chunksNodup
    unfold freeOrGc at this
    exact this.of_append_left
  · intro g hg
    exact absurd hg (List.not_mem_nil g)

theorem destruct_preserves (s : State) (u : Nat) (s' : State)
    (hInv : Inv s) (hfl : u ≠ 0 → InFlight s (u - 8))
    (hd : destruct s u = some s') : Inv s' := by
  by_cases hu : u = 0
  · subst hu
    rw [destruct] at hd
    simp at hd
    rw [← hd]
    exact hInv
  · rw [destruct] at hd
    simp only [hu, if_false] at hd
    cases hmo : metaOwner s (u - 8) with
    | none =>
      rw [hmo] at hd
      simp at hd
    | some pb =>
      rw [hmo] at hd
      simp only [Option.bind_eq_bind, Option.some_bind] at hd
      cases hr : recycle s (u - 8) with
      | none =>
        rw [hr] at hd
        simp at hd
      | some s1 =>
        rw [hr] at hd
        simp only [Option.some_bind] at hd
        obtain ⟨hInv1, hcfg1, hgc1, hidle1, hkeys1, hiff⟩ :=
          recycle_preserves s (u - 8) s1 hInv (hfl hu) hr
        have hInv1c : Inv { s1 with gc := [] } := inv_gc_clear s1 hInv1
        have hnodup1 := hInv1.chunksNodup
        unfold freeOrGc at hnodup1
        have hnf : ∀ g ∈ s1.gc, g ∉ allFree ({ s1 with gc := [] } : State).blocks := by
          intro g hg hmem
          exact (List.disjoint_of_nodup_append hnodup1) hmem hg
        have hnd : s1.gc.Nodup := hnodup1.of_append_right
        have hown : ∀ g ∈ s1.gc, ∃ b ∈ keysOf ({ s1 with gc := [] } : State).blocks,
            g ∈ ({ s1 with gc := [] } : State).cfg.metas b := fun g hg => hInv1.gcOwned g hg
        obtain ⟨s2, hrun, hInv2⟩ :=
          drainGC_preserves s1.gc { s1 with gc := [] } hInv1c rfl hnf hnd hown
        rw [hrun] at hd
        have h2 := Option.some.inj hd
        rw [← h2]
        exact hInv2

end PoolVerify

namespace PoolVerify

theorem setPush_preserves (s : State) (g pb : Nat) (parent : Block)
    (hInv : Inv s) (hmo : metaOwner s g = some pb)
    (hfind : findBlock s.blocks pb = some parent)
    (hnf : g ∉ allFree s.blocks) (hng : g ∉ s.gc) :
    Inv { s with blocks := setBlock s.blocks pb (blockSet parent g) }
    ∧ keysOf (setBlock s.blocks pb (blockSet parent g)) = keysOf s.blocks
    ∧ ∀ x, x ∈ allFree (setBlock s.blocks pb (blockSet parent g))
        ↔ x = g ∨ x ∈ allFree s.blocks := by
  obtain ⟨hpbk, hgm⟩ := metaOwner_spec s g pb hmo
  have hpb0 := hInv.keysPos pb hpbk
  have hg0 : g ≠ 0 := metas_pos s.cfg pb hpb0 hInv.alignGe g hgm
  have hbs : blockSet parent g = ⟨g :: parent.free, parent.next, parent.prev⟩ := by
    cases parent
    simp [blockSet, hg0]
  rw [hbs]
  obtain ⟨L1, L2, hd1, hd2⟩ := allFree_setBlock_decomp s.blocks pb
    ⟨g :: parent.free, parent.next, parent.prev⟩ parent hfind
  have hmemblocks : (pb, parent) ∈ s.blocks := findBlock_mem _ _ _ hfind
  refine ⟨⟨hInv.alignGe, hInv.sizeGe, hInv.countGe, hInv.noClash, ?_, ?_, ?_, ?_, ?_, ?_, ?_, ?_, hInv.idleNodup⟩,
    keysOf_setBlock _ _ _, ?_⟩
  · rw [keysOf_setBlock]; exact hInv.keysNodup
  · rw [keysOf_setBlock]; exact hInv.keysPos
  · rw [keysOf_setBlock]; exact hInv.metasDisj
  · intro p hp x hx
    rcases mem_setBlock _ _ _ p hp with hmem | hmem
    · exact hInv.freeSub p hmem x hx
    · subst hmem
      simp only [List.mem_cons] at hx
      rcases hx with hx | hx
      · subst hx
        exact hgm
      · exact hInv.freeSub (pb, parent) hmemblocks x hx
  · show (allFree _ ++ s.gc).Nodup
    rw [hd2]
    have hold : (L1 ++ (parent.free ++ (L2 ++ s.gc))).Nodup := by
      have := hInv.chunksNodup
      unfold freeOrGc at this
      rw [hd1] at this
      simpa [List.append_assoc] using this
    have hmnot : g ∉ L1 ++ (parent.free ++ (L2 ++ s.gc)) := by
      rw [hd1] at hnf
      simp only [List.mem_append] at hnf ⊢
      tauto
    have := nodup_insert_middle L1 parent.free (L2 ++ s.gc) g hold hmnot
    simpa [List.append_assoc] using this
  · intro g' hg'
    obtain ⟨b, hb, hgb⟩ := hInv.gcOwned g' hg'
    exact ⟨b, by rw [keysOf_setBlock]; exact hb, hgb⟩
  · obtain ⟨l, hch, hIl⟩ := hInv.chain
    refine ⟨l, ?_, hIl⟩
    exact chainRep_set_same_links s.blocks 0 s.top l hch pb parent
      (g :: parent.free) hfind (by simp)
  · intro b hb
    obtain ⟨blk, hfb, hbf, hbn, hbp⟩ := hInv.idleOk b hb
    by_cases hbe : b = pb
    · subst hbe
      rw [hfind] at hfb
      have hpe := (Option.some.inj hfb).symm
      subst hpe
      exact ⟨⟨g :: blk.free, blk.next, blk.prev⟩,
        findBlock_setBlock_self _ _ _ _ hfind, by simp, hbn, hbp⟩
    · exact ⟨blk, by rw [findBlock_setBlock_ne _ _ _ _ hbe]; exact hfb, hbf, hbn, hbp⟩
  · intro x
    rw [hd2, hd1]
    simp
    tauto

theorem cleanupDrain_inv (gcl : List Nat) : ∀ (s : State), Inv s → s.gc = [] →
    (∀ g ∈ gcl, g ∉ allFree s.blocks) → gcl.Nodup →
    (∀ g ∈ gcl, ∃ b ∈ keysOf s.blocks, g ∈ s.cfg.metas b) →
    ∃ s', cleanupDrain gcl s = some s' ∧ Inv s' ∧ s'.gc = [] ∧ s'.idle = s.idle := by
  induction gcl with
  | nil =>
    intro s hInv hgc _ _ _
    exact ⟨s, rfl, hInv, hgc, rfl⟩
  | cons g rest ih =>
    intro s hInv hgc hnf hnd hown
    obtain ⟨pb, hmo⟩ := metaOwner_some_of_owned s g (hown g (List.mem_cons_self _ _))
    obtain ⟨parent, hparent⟩ := findBlock_some_of_metaOwner s g pb hmo
    obtain ⟨hInv1, hkeys1, hiff⟩ := setPush_preserves s g pb parent hInv hmo hparent
      (hnf g (List.mem_cons_self _ _)) (by rw [hgc]; exact List.not_mem_nil g)
    rw [List.nodup_cons] at hnd
    set s1 : State := { s with blocks := setBlock s.blocks pb (blockSet parent g) } with hs1
    have hnf2 : ∀ g' ∈ rest, g' ∉ allFree s1.blocks := by
      intro g' hg' hmem
      rcases (hiff g').mp hmem with he | he
      · exact hnd.1 (he ▸ hg')
      · exact hnf g' (List.mem_cons_of_mem _ hg') he
    have hown2 : ∀ g' ∈ rest, ∃ b ∈ keysOf s1.blocks, g' ∈ s1.cfg.metas b := by
      intro g' hg'
      obtain ⟨b, hbk, hbm⟩ := hown g' (List.mem_cons_of_mem _ hg')
      exact ⟨b, by show b ∈ keysOf (setBlock _ _ _); rw [hkeys1]; exact hbk, hbm⟩
    obtain ⟨s', hrun, hInv', hgc', hidle'⟩ := ih s1 hInv1 hgc hnf2 hnd.2 hown2
    refine ⟨s', ?_, hInv', hgc', hidle'⟩
    show cleanupDrain (g :: rest) s = some s'
    rw [cleanupDrain, hmo]
    simp only [Option.bind_eq_bind, Option.some_bind, hparent]
    exact hrun

theorem cleanupIdle_sublist (il : List Nat) : ∀ bl : List (Nat × Block),
    (cleanupIdle il bl).Sublist bl := by
  induction il with
  | nil => intro bl; exact List.Sublist.refl _
  | cons b rest ih =>
    intro bl
    rw [cleanupIdle]
    by_cases hb : b = 0
    · simp only [hb, if_true]
      exact ih bl
    · simp only [hb, if_false]
      exact (ih (removeBlock bl b)).trans (removeBlock_sublist bl b)

theorem findBlock_cleanupIdle_ne (il : List Nat) : ∀ (bl : List (Nat × Block)) (x : Nat),
    x ∉ il → findBlock (cleanupIdle il bl) x = findBlock bl x := by
  induction il with
  | nil => intro bl x _; rfl
  | cons b rest ih =>
    intro bl x hx
    rw [List.mem_cons] at hx
    push_neg at hx
    rw [cleanupIdle]
    by_cases hb : b = 0
    · simp only [hb, if_true]
      exact ih bl x hx.2
    · simp only [hb, if_false]
      rw [ih (removeBlock bl b) x hx.2]
      exact findBlock_removeBlock_ne bl b x hx.1

theorem cleanup_preserves (s : State) (s' : State) (hInv : Inv s)
    (hc : cleanup s = some s') : Inv s' := by
  have hInvc : Inv { s with gc := [] } := inv_gc_clear s hInv
  have hnodup := hInv.chunksNodup
  unfold freeOrGc at hnodup
  have hnf : ∀ g ∈ s.gc, g ∉ allFree ({ s with gc := [] } : State).blocks := by
    intro g hg hmem
    exact (List.disjoint_of_nodup_append hnodup) hmem hg
  have hnd : s.gc.Nodup := hnodup.of_append_right
  have hown : ∀ g ∈ s.gc, ∃ b ∈ keysOf ({ s with gc := [] } : State).blocks,
      g ∈ ({ s with gc := [] } : State).cfg.metas b := fun g hg => hInv.gcOwned g hg
  obtain ⟨s1, hrun, hInv1, hgc1, hidle1⟩ :=
    cleanupDrain_inv s.gc { s with gc := [] } hInvc rfl hnf hnd hown
  rw [cleanup] at hc
  rw [hrun] at hc
  simp only [Option.bind_eq_bind, Option.some_bind, Option.pure_def] at hc
  have hs' := (Option.some.inj hc).symm
  subst hs'
  have hsub := cleanupIdle_sublist s1.idle s1.blocks
  have hnodup1 := hInv1.chunksNodup
  unfold freeOrGc at hnodup1
  refine ⟨hInv1.alignGe, hInv1.sizeGe, hInv1.countGe, hInv1.noClash, ?_, ?_, ?_, ?_, ?_, ?_, ?_, ?_, ?_⟩
  · exact (hsub.map _).nodup hInv1.keysNodup
  · intro b hb
    exact hInv1.keysPos b (List.Sublist.subset (hsub.map _) hb)
  · intro a ha b hb hab x hxa
    exact hInv1.metasDisj a (List.Sublist.subset (hsub.map _) ha) b
      (List.Sublist.subset (hsub.map _) hb) hab x hxa
  · intro p hp x hx
    exact hInv1.freeSub p (hsub.subset hp) x hx
  · show (allFree (cleanupIdle s1.idle s1.blocks) ++ s1.gc).Nodup
    rw [hgc1, List.append_nil]
    exact (allFree_sublist _ _ hsub).nodup hnodup1.of_append_left
  · intro g hg
    have hg2 : g ∈ s1.gc := hg
    rw [hgc1] at hg2
    exact absurd hg2 (List.not_mem_nil g)
  · obtain ⟨l, hch, hIl⟩ := hInv1.chain
    refine ⟨l, ?_, ?_⟩
    · refine chainRep_congr _ _ _ _ _ hch ?_
      intro x hx
      refine findBlock_cleanupIdle_ne s1.idle s1.blocks x ?_
      intro hxi
      exact hIl x hxi hx
    · intro b hb
      exact absurd hb (List.not_mem_nil b)
  · intro b hb
    exact absurd hb (List.not_mem_nil b)
  · exact List.nodup_nil

end PoolVerify

namespace PoolVerify

theorem construct_preserves (s : State) (a : Option Nat) (u : Nat) (s' : State)
    (hInv : Inv s) (hfresh : AllocFresh s a) (hc : construct s a = some (u, s')) :
    Inv s' := by
  by_cases hu : u = 0
  · subst hu
    by_cases ht : s.top = 0
    · cases hi : s.idle with
      | cons b irest =>
        rw [construct_unfold_idle s a b irest ht hi] at hc
        obtain ⟨hInvI, hb0⟩ := inv_idle_pop s b irest hInv ht hi
        obtain ⟨_, _, _, _, _, m, hm8, _⟩ := inv_top_go _ 0 s' hInvI hb0 hc
        omega
      | nil =>
        cases hgq : s.gc with
        | cons g gr =>
          rw [construct_unfold_gc s a g gr ht hi hgq] at hc
          obtain ⟨bg, hbgk, hbgm⟩ :=
            hInv.gcOwned g (by rw [hgq]; exact List.mem_cons_self _ _)
          have hg0 : g ≠ 0 :=
            metas_pos s.cfg bg (hInv.keysPos bg hbgk) hInv.alignGe g hbgm
          rw [constructGo_gc _ g hg0] at hc
          have h1 := Option.some.inj hc
          obtain ⟨hu2, _⟩ := Prod.ext_iff.mp h1
          simp only at hu2
          omega
        | nil =>
          cases a with
          | none =>
            rw [construct, ht] at hc
            simp [hi, hgq, setup] at hc
            exact hc ▸ hInv
          | some base =>
            obtain ⟨hb0, hbk, hdisj⟩ := hfresh base rfl
            rw [construct_unfold_alloc s base ht hi hgq hb0] at hc
            have hInvN := inv_fresh s base hInv hi hgq hb0 hbk hdisj
            obtain ⟨_, _, _, _, _, m, hm8, _⟩ := inv_top_go _ 0 s' hInvN hb0 hc
            omega
    · rw [construct_unfold_top s a ht] at hc
      obtain ⟨_, _, _, _, _, m, hm8, _⟩ := inv_top_go s 0 s' hInv ht hc
      omega
  · exact (construct_spec s a u s' hInv hfresh hc hu).1

/-- Claim C10.  The pool invariant Inv - in particular: every block
reachable from a non-null top through next links exists and has a
non-null free-list head curr - is preserved by construct (for fresh
backend allocations), by destruct of an in-flight pointer, by recycle of
an in-flight chunk, and by cleanup; consequently whenever construct
selects a block (top non-null), top->get() pops an actual chunk (never
null), and every successfully constructed pointer is chunk header + one
word, never a null chunk. -/
theorem C10_chain_invariant :
    (∀ s a u s', Inv s → AllocFresh s a → construct s a = some (u, s') → Inv s')
    ∧ (∀ s u s', Inv s → (u ≠ 0 → InFlight s (u - 8)) → destruct s u = some s' → Inv s')
    ∧ (∀ s m s', Inv s → InFlight s m → recycle s m = some s' → Inv s')
    ∧ (∀ s s', Inv s → cleanup s = some s' → Inv s')
    ∧ (∀ s, Inv s → s.top ≠ 0 →
        ∃ blk m, findBlock s.blocks s.top = some blk ∧ (blockGet blk).1 = some m)
    ∧ (∀ s a u s', Inv s → AllocFresh s a → construct s a = some (u, s') → u ≠ 0 →
        ∃ m, u = m + 8) := by
  refine ⟨fun s a u s' h1 h2 h3 => construct_preserves s a u s' h1 h2 h3,
    fun s u s' h1 h2 h3 => destruct_preserves s u s' h1 h2 h3,
    fun s m s' h1 h2 h3 => (recycle_preserves s m s' h1 h2 h3).1,
    fun s s' h1 h2 => cleanup_preserves s s' h1 h2,
    ?_,
    fun s a u s' h1 h2 h3 h4 =>
      (construct_spec s a u s' h1 h2 h3 h4).2.2.2.elim (fun m hm => ⟨m, hm.1⟩)⟩
  intro s hInv ht
  obtain ⟨l, hch, hIl⟩ := hInv.chain
  obtain ⟨tb, l'', hleq, htbf, htbp, htbfr, htail, htnot⟩ :=
    chainRep_head s.blocks 0 s.top l hch ht
  obtain ⟨c, fr, hfree⟩ : ∃ c fr, tb.free = c :: fr := by
    cases hfr : tb.free with
    | nil => exact absurd hfr htbfr
    | cons c fr => exact ⟨c, fr, rfl⟩
  exact ⟨tb, c, htbf, by rw [blockGet, hfree]⟩

/-- The invariant holds of the concrete fresh pool stFresh. -/
theorem inv_stFresh : Inv stFresh := by
  refine ⟨by decide, by decide, by decide, ?_, by decide, by decide, ?_, ?_, by decide,
    ?_, ⟨[1024], ?_, ?_⟩, ?_, by decide⟩
  · intro k hk
    show 64 - 8 + k * 128 ≠ headerBytes
    unfold headerBytes
    omega
  · intro a ha b hb hab x hxa
    simp [stFresh, cfgEx, keysOf] at ha hb
    subst ha
    subst hb
    exact absurd rfl hab
  · intro p hp x hx
    simp [stFresh] at hp
    subst hp
    fin_cases hx <;> decide
  · intro g hg
    exact absurd hg (List.not_mem_nil g)
  · refine ChainRep.cons _ _ _ ⟨[1080, 1208, 1336], 0, 0⟩ _ (by decide) (by decide) rfl
      (by decide) ?_ (by decide)
    exact ChainRep.nil _ _
  · intro b hb
    exact absurd hb (List.not_mem_nil b)
  · intro b hb
    exact absurd hb (List.not_mem_nil b)

/-- Witness for C10: the invariant of the concrete pool stFresh is kept by
a concrete construct, and its non-null top yields a chunk. -/
theorem C10_chain_invariant_witness :
    Inv stFresh1
    ∧ ∃ blk m, findBlock stFresh.blocks stFresh.top = some blk
        ∧ (blockGet blk).1 = some m :=
  ⟨C10_chain_invariant.1 stFresh none 1088 stFresh1 inv_stFresh
      (fun b h => Option.noConfusion h) (by decide),
    C10_chain_invariant.2.2.2.2.1 stFresh inv_stFresh (by decide)⟩

/-- Claim C7.  Under the pool invariant, two consecutive successful
construct calls never return the same address, and a returned chunk is
linked in no free list and not queued in gc after the call that returned
it. -/
theorem C7_claim (s : State) (a1 a2 : Option Nat) (u1 u2 : Nat) (s1 s2 : State)
    (hInv : Inv s) (hf1 : AllocFresh s a1) (hf2 : AllocFresh s1 a2)
    (h1 : construct s a1 = some (u1, s1)) (h2 : construct s1 a2 = some (u2, s2))
    (hu1 : u1 ≠ 0) (hu2 : u2 ≠ 0) :
    u1 ≠ u2 ∧ u1 - 8 ∉ allFree s1.blocks ∧ u1 - 8 ∉ s1.gc :=
  C7_no_double_issue s a1 a2 u1 u2 s1 s2 hInv hf1 hf2 h1 h2 hu1 hu2

/-- Witness for C7 on the concrete pool stFresh. -/
theorem C7_claim_witness :
    (1088 : Nat) ≠ 1216 ∧ (1088 : Nat) - 8 ∉ allFree stFresh1.blocks
      ∧ (1088 : Nat) - 8 ∉ stFresh1.gc :=
  C7_claim stFresh none none 1088 1216 stFresh1 stFresh2 inv_stFresh
    (fun b h => Option.noConfusion h) (fun b h => Option.noConfusion h)
    (by decide) (by decide) (by decide) (by decide)

end PoolVerify
